import Mathlib

/-!
Verification of the Interaction Dispatcher specification against `src/app.py`
(Daybreak2024/breaker-brain).

Strings are modelled as `List Char` (a Python `str` is a sequence of code
points).  Pure helpers of the source (`_word_cap`, `_normalize_headers`,
`_fallback_lens_text`, `run_lens` with the generation backend unavailable) are
embedded as executable Lean functions; the three Flask handlers and the JSON
test endpoint are embedded as functions from a verified-flag and a parsed
payload to a list of outbound effects plus an HTTP response shape.
-/

namespace BreakerBrain

/-- Python whitespace for `str.split()` / `str.strip()` / regex `\s`
(ASCII part; all strings in this development are ASCII). -/
def wsChar (c : Char) : Bool :=
  c == ' ' || c == '\t' || c == '\n' || c == '\r' || c == '\x0b' || c == '\x0c'

/-- Python `str.strip()`: drop whitespace from both ends. -/
def stripL (cs : List Char) : List Char :=
  (((cs.dropWhile wsChar).reverse).dropWhile wsChar).reverse

/-- Helper for `str.split()`: accumulate the current (reversed) word. -/
def splitAux : List Char → List Char → List (List Char)
  | [], acc => if acc.isEmpty then [] else [acc.reverse]
  | c :: cs, acc =>
      if wsChar c then
        if acc.isEmpty then splitAux cs [] else acc.reverse :: splitAux cs []
      else
        splitAux cs (c :: acc)

/-- Python `str.split()` with no argument: split on whitespace runs,
dropping empty tokens. -/
def splitWs (cs : List Char) : List (List Char) :=
  splitAux cs []

/-- Python `" ".join(words)`. -/
def joinSpace : List (List Char) → List Char
  | [] => []
  | [w] => w
  | w :: ws => w ++ ' ' :: joinSpace ws

/-- app.py line 16: `MAX_LENS_WORDS = int(os.getenv("MAX_LENS_WORDS", "160"))`,
default configuration. -/
def MAX_LENS_WORDS : Nat := 160

/-- app.py lines 18-22:
```
def _word_cap(md: str, limit: int = MAX_LENS_WORDS) -> str:
    words = md.split()
    if len(words) <= limit:
        return md
    return " ".join(words[:limit]) + " …"
``` -/
def _word_cap (md : List Char) (limit : Nat) : List Char :=
  let words := splitWs md
  if words.length ≤ limit then md
  else joinSpace (words.take limit) ++ [' ', '…']

/-- Number of whitespace-separated words of a string. -/
def wordCount (cs : List Char) : Nat :=
  (splitWs cs).length

/-!
## `_normalize_headers` (app.py lines 24-35)

```
sections = {
    "Verdict": r"(?:^|\n)\*?Verdict\*?\s*[:—-]",
    "Payback": r"(?:^|\n)\*?Payback\*?\s*[:—-]",
    "Key Points": r"(?:^|\n)\*?Key Points\*?\s*[:—-]",
    "Risks & Mitigations": r"(?:^|\n)\*?Risks\s*&\s*Mitigations\*?\s*[:—-]"
}
out = md
for label, pat in sections.items():
    out = re.sub(pat, f"\n*{label}* —", out, flags=re.IGNORECASE)
return out.strip()
```

Each pattern is embedded as a deterministic matcher over `List Char`.  A label
body is a list of atoms: a case-insensitive character, or the `\s*&\s*` unit
of the fourth pattern.
-/

/-- One unit of a heading-label pattern. -/
inductive Atom
  | ch (c : Char)
  | amp
deriving DecidableEq

def mkChAtoms (s : String) : List Atom := s.data.map Atom.ch

def verdictAtoms : List Atom := mkChAtoms "verdict"
def paybackAtoms : List Atom := mkChAtoms "payback"
def keyPointsAtoms : List Atom := mkChAtoms "key points"
def risksAtoms : List Atom :=
  mkChAtoms "risks" ++ [Atom.amp] ++ mkChAtoms "mitigations"

/-- Match a label pattern at the head of the input (case-insensitive
characters; `Atom.amp` is the greedy `\s*&\s*`, whose maximal whitespace runs
are forced because `&` and the following letter are not whitespace). -/
def matchAtoms : List Atom → List Char → Option (List Char)
  | [], cs => some cs
  | Atom.ch a :: as, c :: cs =>
      if c.toLower = a.toLower then matchAtoms as cs else none
  | Atom.ch _ :: _, [] => none
  | Atom.amp :: as, cs =>
      match cs.dropWhile wsChar with
      | '&' :: cs₂ => matchAtoms as (cs₂.dropWhile wsChar)
      | _ => none

/-- The `[:—-]` character class. -/
def sepChar (c : Char) : Bool := c == ':' || c == '—' || c == '-'

/-- The regex's optional `\*?`: consume a leading `*` when present.  It has
no useful backtracking: every label begins with a letter and `\s*[:—-]`
cannot consume a `*`, so consuming a present `*` greedily is faithful. -/
def dropStar : List Char → List Char
  | '*' :: t => t
  | cs => cs

/-- The trailing `\*?\s*[:—-]` of each pattern. -/
def sepStage (u : List Char) : Option (List Char) :=
  match (dropStar u).dropWhile wsChar with
  | c :: r₃ => if sepChar c then some r₃ else none
  | [] => none

/-- Match `\*?LABEL\*?\s*[:—-]` at the head of the input, returning the
rest. -/
def coreMatch (atoms : List Atom) (cs : List Char) : Option (List Char) :=
  (matchAtoms atoms (dropStar cs)).bind sepStage

/-- One `re.sub` pass over positions `> 0`, fuel-indexed so that the
definition is structurally recursive (any fuel `≥` input length computes the
scan; see `subGo_fuel`).  A match site is a `'\n'` whose tail matches the core
pattern; the `'\n'` is consumed by the match, the replacement is emitted and
scanning resumes after the matched text, exactly as `re.sub` does. -/
def subGo (atoms : List Atom) (repl : List Char) : Nat → List Char → List Char
  | _, [] => []
  | 0, cs => cs
  | fuel + 1, c :: cs =>
      if c = '\n' then
        match coreMatch atoms cs with
        | some rest => repl ++ subGo atoms repl fuel rest
        | none => '\n' :: subGo atoms repl fuel cs
      else c :: subGo atoms repl fuel cs

/-- The position-`> 0` part of one `re.sub` pass. -/
def scan (atoms : List Atom) (repl : List Char) (cs : List Char) : List Char :=
  subGo atoms repl cs.length cs

/-- One full `re.sub(pat, f"\n*LABEL* —", out)` pass: the `^` alternative of
`(?:^|\n)` can fire only at position 0 and consumes nothing. -/
def subL (atoms : List Atom) (repl : List Char) (cs : List Char) : List Char :=
  match coreMatch atoms cs with
  | some rest => repl ++ scan atoms repl rest
  | none => scan atoms repl cs

/-- The replacement string `f"\n*{label}* —"`. -/
def replFor (label : String) : List Char :=
  '\n' :: '*' :: (label.data ++ ['*', ' ', '—'])

/-- app.py lines 24-35: the four substitution passes in dict insertion order,
then `.strip()`. -/
def _normalize_headers (md : List Char) : List Char :=
  stripL
    (subL risksAtoms (replFor "Risks & Mitigations")
      (subL keyPointsAtoms (replFor "Key Points")
        (subL paybackAtoms (replFor "Payback")
          (subL verdictAtoms (replFor "Verdict") md))))

/-! ## Lens Engine (app.py lines 404-474) -/

/-- app.py lines 404-410: the lens id → display name dict, read through
`LENS_NAMES.get(lens, lens)`. -/
def LENS_NAMES (lens : String) : String :=
  if lens = "cfo_skeptic" then "CFO Skeptic"
  else if lens = "builder_ceo" then "Builder CEO"
  else if lens = "scaler" then "Scaler"
  else if lens = "challenger" then "Challenger"
  else if lens = "operator" then "Operator"
  else lens

/-- The five recognized lens ids (the `selected in \x7b...\x7d` set of app.py
line 205 and the keys of the fallback dict). -/
def lensIds : List String :=
  ["cfo_skeptic", "builder_ceo", "scaler", "challenger", "operator"]

/-- app.py lines 412-421: `_fallback_lens_text` — `responses.get(lens,
f"Lens applied: \x7blens\x7d")`.  The `text` parameter is unused, as in the
source. -/
def _fallback_lens_text (lens : String) (text : String) : List Char :=
  (if lens = "cfo_skeptic" then
    "CFO Skeptic checklist:\n• Payback < 12 months?\n• Cash vs EBITDA?\n• Sensitivity to accuracy deltas?\n• Hidden costs (services/data/change mgmt)?"
  else if lens = "builder_ceo" then
    "Builder CEO lens:\n• Ship a thin slice this week.\n• What becomes faster?\n• Delete work, don’t add it.\n• 90-day compounding?"
  else if lens = "scaler" then
    "Scaler lens:\n• Repeatable playbook?\n• Unit econ at 10× volume?\n• Runbooks + guardrails?"
  else if lens = "challenger" then
    "Challenger lens:\n• Which sacred cow to challenge?\n• If starting fresh, is this the path?"
  else if lens = "operator" then
    "Operator lens:\n• Who owns the KPI?\n• SOP + SLA?\n• Rollback plan if metrics slip?"
  else "Lens applied: " ++ lens).data

/-- app.py lines 423-431 with the generation backend unavailable (`_oa is
None`): the fallback checklist, then unconditionally `_normalize_headers`
and `_word_cap`.  (With a backend configured, lines 433-474 follow the same
shape: any call failure falls back to the same checklist and the same two
formatting passes are applied.) -/
def run_lens (lens : String) (text : String) : List Char :=
  _word_cap (_normalize_headers (_fallback_lens_text lens text)) MAX_LENS_WORDS

/-! ## Private metadata round trip (app.py lines 238-240 and 262-267) -/

structure PMeta where
  lens : String
  channel_id : String
  user_id : String
deriving DecidableEq

/-- `json.dumps(\x7b"lens": lens, "channel_id": channel_id, "user_id":
user_id\x7d)` (app.py line 238): Python 3.7+ preserves dict insertion order
and uses `", "` / `": "` separators; strings of printable ASCII without `"`
or backslash are emitted verbatim. -/
def encodePM (m : PMeta) : String :=
  "\x7b\"lens\": \"" ++ m.lens ++ "\", \"channel_id\": \"" ++ m.channel_id
    ++ "\", \"user_id\": \"" ++ m.user_id ++ "\"\x7d"

/-- Strings `json.dumps` emits verbatim and `json.loads` reads back without
unescaping: printable ASCII without `"` or backslash. -/
def jsonSafeStr (s : String) : Bool :=
  s.data.all fun c => c != '"' && c != '\\' && 0x20 ≤ c.toNat && c.toNat ≤ 0x7e

/-- Consume an expected literal prefix of the input. -/
def expectPfx : List Char → List Char → Option (List Char)
  | [], cs => some cs
  | p :: ps, c :: cs => if c = p then expectPfx ps cs else none
  | _ :: _, [] => none

def pmPrefix1 : List Char := "\x7b\"lens\": \"".data
def pmSep1 : List Char := "\", \"channel_id\": \"".data
def pmSep2 : List Char := "\", \"user_id\": \"".data
def pmSuffix : List Char := "\"\x7d".data

/-- `json.loads(view.get("private_metadata"))` followed by the three
`pm.get(...)` reads (app.py lines 262-267), restricted to the exact object
shape the dispatcher itself writes at modal-open time (`encodePM`).  Input of
any other shape is modelled as a decode failure, on which the handler spawns
no worker (the source would raise inside the `try` or pass `None` fields on;
only the conforming shape is claim-relevant). -/
def decodePM (s : String) : Option PMeta :=
  (expectPfx pmPrefix1 s.data).bind fun r₁ =>
    (expectPfx pmSep1 (r₁.dropWhile (fun c => c != '"'))).bind fun r₂ =>
      (expectPfx pmSep2 (r₂.dropWhile (fun c => c != '"'))).bind fun r₃ =>
        match expectPfx pmSuffix (r₃.dropWhile (fun c => c != '"')) with
        | some [] =>
            some ⟨String.mk (r₁.takeWhile (fun c => c != '"')),
                  String.mk (r₂.takeWhile (fun c => c != '"')),
                  String.mk (r₃.takeWhile (fun c => c != '"'))⟩
        | _ => none

/-! ## Dispatcher handlers -/

/-- Outbound side effects of a handler, in program order.  `print` logging to
stdout is not modelled.  `logAttempt` is one `log_corpus` call (one
Interaction Log record attempt — `log_corpus` itself swallows store failures,
app.py lines 69-78); `lensRun` marks a synchronous `run_lens` invocation;
`spawnWorker` is the `threading.Thread(target=_post_lens_result_async, ...)`
handoff with its argument tuple; `postEphemeral` carries the `text=` argument
(block payloads are not modelled). -/
inductive Effect
  | logAttempt (kind text user channel : String)
  | postEphemeral (channel user text : String)
  | postMessage (channel text : String)
  | viewsOpen (callbackId : String)
  | lensRun (lens text : String)
  | spawnWorker (lens text channel user : String)
deriving DecidableEq

/-- The fields of a modal view that the claims mention. -/
structure ModalView where
  title : String
  callback_id : String
  private_metadata : String
deriving DecidableEq

/-- The HTTP response shapes of the handlers. -/
inductive Response
  | unauthorized
  | emptyOk
  | challenge (s : String)
  | ackText (s : String)
  | pushView (v : ModalView)
  | clearView
  | apiOk (result : String)
deriving DecidableEq

/-- HTTP status of each response shape (`make_response("invalid signature",
401)` versus the 200-family bodies). -/
def Response.status : Response → Nat
  | .unauthorized => 401
  | _ => 200

/-- The fields of a `/slack/events` JSON body the handler reads (an absent
field is modelled as `""`, the falsy default the source supplies). -/
structure EventsBody where
  type : String
  challenge : String
  event_type : String
  event_bot_id : String
  event_text : String
  event_user : String
  event_channel : String
deriving DecidableEq

/-- app.py lines 97-125: the `/slack/events` handler. -/
def slack_events (verified : Bool) (b : EventsBody) : List Effect × Response :=
  if !verified then ([], .unauthorized)
  else if b.type == "url_verification" then ([], .challenge b.challenge)
  else if b.type == "event_callback" then
    ((if b.event_type == "message" && b.event_bot_id == "" then
        [Effect.logAttempt "event" b.event_text b.event_user b.event_channel]
      else [])
      ++ (if b.event_type == "app_mention" then
        [Effect.postMessage b.event_channel
          "Try `/lens` to pick a lens, or `/decide <prompt>` for a decision brief."]
      else []),
     .emptyOk)
  else ([], .emptyOk)

/-- The fields of an interactivity payload the handler reads (an absent field
is modelled as `""`). -/
structure IPayload where
  type : String
  callback_id : String
  user_id : String
  channel_id : String
  container_channel_id : String
  action_id : String
  action_value : String
  message_text : String
  view_callback_id : String
  view_private_metadata : String
  view_ctx_value : String
deriving DecidableEq

/-- app.py lines 154-157: `payload["channel"]["id"] or
payload["container"]["channel_id"]`. -/
def chanOf (p : IPayload) : String :=
  if p.channel_id = "" then p.container_channel_id else p.channel_id

/-- app.py lines 137-148: the fixed view of the TEMP block. -/
def testModalView : ModalView :=
  ⟨"Test Modal", "noop", ""⟩

/-- app.py line 211. -/
def picker_text : List Char := "which lens do you want to apply".data

/-- Python's substring test `needle in hay`. -/
def containsSub (needle hay : List Char) : Bool :=
  hay.tails.any (fun t => needle.isPrefixOf t)

/-- app.py lines 210-212:
`has_context = bool(orig_text.strip()) and picker_text not in orig_text.lower()`. -/
def hasContext (orig : List Char) : Bool :=
  !(stripL orig).isEmpty && !(containsSub picker_text (orig.map Char.toLower))

/-- The ephemeral picker prompt text (app.py lines 172 and 309). -/
def pickerPromptText : String := "Which lens do you want to apply?"

/-- app.py lines 188-254: the `block_actions` section of the interactivity
handler (everything after the shared `log_corpus` call).  In the shipped
handler this code is unreachable — the TEMP block at lines 135-149 returns
first — and it is modelled as its own function so that its logic can be
stated; `interactivity` itself threads it in at the (dead) position it
occupies in the source. -/
def lensBranch (p : IPayload) : List Effect × Response :=
  let ch := chanOf p
  if p.action_id == "post_lens" then
    ([Effect.postMessage ch "Lens Analysis",
      Effect.postEphemeral ch p.user_id "Posted to channel ✅",
      Effect.logAttempt "lens_posted" "lens analysis posted" p.user_id ch],
     .emptyOk)
  else if p.action_id.startsWith "lens_" || lensIds.contains p.action_value then
    let lens := p.action_value
    let label := LENS_NAMES lens
    let ack := Effect.postEphemeral ch p.user_id ("⏳ " ++ label ++ " analysis…")
    if hasContext p.message_text.data then
      ([ack, Effect.lensRun lens p.message_text,
        Effect.postEphemeral ch p.user_id label], .emptyOk)
    else
      ([ack], .pushView ⟨label ++ " Lens", "lens_modal",
                          encodePM ⟨lens, ch, p.user_id⟩⟩)
  else ([], .emptyOk)

/-- app.py lines 128-285: the `/slack/interactivity` handler.  Control flow of
the source: signature check; payload parse; TEMP block (every `block_actions`
payload is answered with a pushed "Test Modal" before anything else); shared
`log_corpus` call; then the `message_action`, `block_actions` (dead) and
`view_submission` sections; default empty ack. -/
def interactivity (verified : Bool) (p : IPayload) : List Effect × Response :=
  if !verified then ([], .unauthorized)
  else if p.type == "block_actions" then ([], .pushView testModalView)
  else
    let logE := Effect.logAttempt "interaction" p.message_text p.user_id (chanOf p)
    if p.type == "message_action" && p.callback_id == "apply_lens_action" then
      ([logE, Effect.postEphemeral (chanOf p) p.user_id pickerPromptText], .emptyOk)
    else if p.type == "block_actions" then
      match lensBranch p with
      | (es, r) => (logE :: es, r)
    else if p.type == "view_submission" && p.view_callback_id == "lens_modal" then
      match decodePM p.view_private_metadata with
      | some m =>
          ([logE,
            Effect.postEphemeral m.channel_id m.user_id
              ("⏳ " ++ LENS_NAMES m.lens ++ " analysis…"),
            Effect.spawnWorker m.lens (String.mk (stripL p.view_ctx_value.data))
              m.channel_id m.user_id],
           .clearView)
      | none => ([logE], .clearView)
    else ([logE], .emptyOk)

/-- The fields of a `/slack/commands` form the handler reads. -/
structure CommandsForm where
  command : String
  user_id : String
  channel_id : String
  text : String
  trigger_id : String
deriving DecidableEq

/-- app.py lines 288-352: the `/slack/commands` handler. -/
def commands (verified : Bool) (f : CommandsForm) : List Effect × Response :=
  if !verified then ([], .unauthorized)
  else
    let logE := Effect.logAttempt "command" f.text f.user_id f.channel_id
    if f.command == "/lens" then
      ([logE, Effect.postEphemeral f.channel_id f.user_id pickerPromptText],
       .ackText "Pick a lens below ⬇️")
    else if f.command == "/decide" then
      ([logE, Effect.viewsOpen "decide_modal"], .ackText "Opening decision modal…")
    else ([logE], .ackText ("Unsupported command `" ++ f.command ++ "`."))

/-- The fields of a `/api/lens` JSON body (`None` models an absent key). -/
structure ApiLensData where
  lens : Option String
  text : Option String
deriving DecidableEq

/-- app.py lines 491-502: the `/api/lens` test endpoint — no signature
verification; runs the lens engine (`run_lens` is total in the
backend-unavailable model, so the `except` arm is dead) and logs, answering
200. -/
def api_lens (d : ApiLensData) : List Effect × Response :=
  let lens := d.lens.getD "cfo_skeptic"
  let text := d.text.getD ""
  ([Effect.lensRun lens text, Effect.logAttempt "api_lens" text "" ""],
   .apiOk (String.mk (run_lens lens text)))

/-- Count of Interaction Log record attempts among a handler's effects. -/
def logCount (es : List Effect) : Nat :=
  (es.filter fun e => match e with | .logAttempt _ _ _ _ => true | _ => false).length

/-!
## Heading-variant document model (for C7)

The C7 claim quantifies over inputs built from heading variants (any casing,
optional single bold stars, whitespace before a `:`/`—`/`-` separator, and
flexible whitespace around the `&`) interleaved with arbitrary non-heading
body text.  `HVariant`/`HSection`/`renderDoc` generate exactly those inputs;
`bodyClean` states that body text contains no heading-pattern occurrence of
its own.
-/

/-- A continuation that can follow a body segment in a rendered document:
nothing, or a newline followed by a rendered heading (whose first character
is `*` or a label letter — never whitespace, a separator, `&`, or an `m`
that could extend a dangling `Risks &`). -/
def goodCont (r : List Char) : Prop :=
  r = [] ∨ r = ['\n'] ∨ ∃ c r', r = '\n' :: c :: r' ∧ wsChar c = false
    ∧ sepChar c = false ∧ c ≠ '&' ∧ c.toLower ≠ 'm'

/-- Structural sanity of a pattern's atom list: no character atom can match a
newline, and the `\s*&\s*` atom is followed by an `m` character atom (true of
the four patterns; it pins down what a dangling match could consume). -/
def atomsOK : List Atom → Bool
  | [] => true
  | Atom.ch c :: rest => (c.toLower != '\n') && atomsOK rest
  | [Atom.amp] => false
  | Atom.amp :: Atom.ch x :: rest =>
      (x.toLower == 'm') && (x.toLower != '\n') && atomsOK rest
  | Atom.amp :: Atom.amp :: _ => false

/-- Render a label's characters with an arbitrary per-position case choice. -/
def caseMapAux (flags : Nat → Bool) : Nat → List Char → List Char
  | _, [] => []
  | k, c :: cs => (if flags k then c.toUpper else c.toLower) :: caseMapAux flags (k + 1) cs

/-- One heading occurrence: which of the four labels, whether each `\*?` is
present, the per-character case choice, the whitespace around `&` (used by
label 3 only) and before the separator, and the separator character. -/
structure HVariant where
  label : Fin 4
  bold1 : Bool
  bold2 : Bool
  flags : Nat → Bool
  aw1 : List Char
  aw2 : List Char
  ws : List Char
  sep : Char

def labelAtoms (j : Fin 4) : List Atom :=
  match j.val with
  | 0 => verdictAtoms
  | 1 => paybackAtoms
  | 2 => keyPointsAtoms
  | _ => risksAtoms

def labelCanonical (j : Fin 4) : String :=
  match j.val with
  | 0 => "Verdict"
  | 1 => "Payback"
  | 2 => "Key Points"
  | _ => "Risks & Mitigations"

/-- The lowercase first letter of each label. -/
def firstLower (j : Fin 4) : Char :=
  match j.val with
  | 0 => 'v'
  | 1 => 'p'
  | 2 => 'k'
  | _ => 'r'

def labelBody (v : HVariant) : List Char :=
  match v.label.val with
  | 0 => caseMapAux v.flags 0 "verdict".data
  | 1 => caseMapAux v.flags 0 "payback".data
  | 2 => caseMapAux v.flags 0 "key points".data
  | _ => caseMapAux v.flags 0 "risks".data ++ v.aw1 ++ '&' :: v.aw2
          ++ caseMapAux v.flags 5 "mitigations".data

/-- The text of one heading occurrence (without the anchoring newline). -/
def renderVar (v : HVariant) : List Char :=
  (if v.bold1 then ['*'] else []) ++ labelBody v
    ++ (if v.bold2 then ['*'] else []) ++ v.ws ++ [v.sep]

/-- Whitespace run without newlines (newlines inside a heading would create
nested anchors; the claim's "colon/dash separator" tolerance does not need
them). -/
def hwsOK (l : List Char) : Bool := l.all fun c => wsChar c && c != '\n'

def varOK (v : HVariant) : Bool :=
  hwsOK v.aw1 && hwsOK v.aw2 && hwsOK v.ws && sepChar v.sep

/-- Case flags of the canonical label spellings. -/
def canonFlags (j : Fin 4) : Nat → Bool :=
  match j.val with
  | 0 => fun k => k == 0
  | 1 => fun k => k == 0
  | 2 => fun k => k == 0 || k == 4
  | _ => fun k => k == 0 || k == 5

/-- The canonical heading form `*Label* —` as a variant. -/
def canonVar (j : Fin 4) : HVariant :=
  ⟨j, true, true, canonFlags j, [' '], [' '], [' '], '—'⟩

/-- One document section: a heading occurrence followed by body text. -/
structure HSection where
  v : HVariant
  body : List Char

def canonSec (j : Fin 4) (s : HSection) : HSection :=
  if s.v.label = j then ⟨canonVar j, s.body⟩ else s

def renderSecs : List HSection → List Char
  | [] => []
  | s :: rest => '\n' :: (renderVar s.v ++ (s.body ++ renderSecs rest))

/-- A document: leading body text, then sections, each anchored by the
newline that the heading patterns consume. -/
def renderDoc (b0 : List Char) (secs : List HSection) : List Char :=
  b0 ++ renderSecs secs

/-- No occurrence of the pattern at any newline anchor inside the body. -/
def bodyClean1 (a : List Atom) : List Char → Bool
  | [] => true
  | c :: cs =>
      (if c = '\n' then (coreMatch a cs).isNone else true) && bodyClean1 a cs

def bodyClean (b : List Char) : Bool :=
  bodyClean1 verdictAtoms b && bodyClean1 paybackAtoms b
    && bodyClean1 keyPointsAtoms b && bodyClean1 risksAtoms b

/-- Additionally no occurrence at position 0 (the `^` anchor), for the
leading body. -/
def body0Clean (b : List Char) : Bool :=
  bodyClean b && (coreMatch verdictAtoms b).isNone
    && (coreMatch paybackAtoms b).isNone && (coreMatch keyPointsAtoms b).isNone
    && (coreMatch risksAtoms b).isNone

/-! ## Word-split lemmas (for `_word_cap`) -/

/-! ## Concrete payloads and spec-worded predicates used by the claim
theorems -/

def c3Payload : IPayload :=
  { type := "block_actions", callback_id := "", user_id := "U1", channel_id := "C1",
    container_channel_id := "", action_id := "unknown_action", action_value := "whatever",
    message_text := "some text", view_callback_id := "", view_private_metadata := "",
    view_ctx_value := "" }

/-- C2 failing input: a verified `block_actions` callback that selects the
`cfo_skeptic` lens on a message carrying usable text. -/
def c2Payload : IPayload :=
  { type := "block_actions", callback_id := "", user_id := "U1", channel_id := "C1",
    container_channel_id := "", action_id := "lens_cfo", action_value := "cfo_skeptic",
    message_text := "We propose buying X for $50k", view_callback_id := "",
    view_private_metadata := "", view_ctx_value := "" }

/-- Interaction Log attempts per verified events-endpoint payload as the code
behaves (C1 amended): only non-bot `message` events are recorded. -/
def expectedEventsLogs (b : EventsBody) : Nat :=
  if b.type == "url_verification" then 0
  else if b.type == "event_callback" && b.event_type == "message"
      && b.event_bot_id == "" then 1
  else 0

/-- Interaction Log attempts per verified interactivity-endpoint payload (C1
amended): `block_actions` payloads are intercepted by the TEMP block before
the `log_corpus` call and produce none; every other payload produces exactly
one. -/
def expectedInteractivityLogs (p : IPayload) : Nat :=
  if p.type == "block_actions" then 0 else 1

def c1Mention : EventsBody :=
  { type := "event_callback", challenge := "", event_type := "app_mention",
    event_bot_id := "", event_text := "hi", event_user := "U2",
    event_channel := "C2" }

def c9Meta : PMeta := ⟨"scaler", "C9", "U9"⟩

def c9Payload : IPayload :=
  { type := "view_submission", callback_id := "", user_id := "U9",
    channel_id := "C9", container_channel_id := "", action_id := "",
    action_value := "", message_text := "", view_callback_id := "lens_modal",
    view_private_metadata := encodePM c9Meta,
    view_ctx_value := "  Launch feature Y  " }

/-- The usable-text predicate as the claim words it: non-empty after trimming
and not case-insensitively *equal* to the picker's own prompt string. -/
def specUsableText (orig : List Char) : Bool :=
  !(stripL orig).isEmpty
    && !(orig.map Char.toLower == pickerPromptText.data.map Char.toLower)

/-- The usable-text predicate as amended: non-empty after trimming and the
lowercased text does not *contain* the substring
`"which lens do you want to apply"`. -/
def amendedUsableText (orig : List Char) : Bool :=
  !(stripL orig).isEmpty && !(containsSub picker_text (orig.map Char.toLower))

def c8Payload : IPayload :=
  { type := "block_actions", callback_id := "", user_id := "U8",
    channel_id := "C8", container_channel_id := "", action_id := "lens_cfo",
    action_value := "cfo_skeptic",
    message_text := "Which lens do you want to apply?",
    view_callback_id := "", view_private_metadata := "", view_ctx_value := "" }

def c7B0 : List Char := ("Intro" : String).data

def c7Secs : List HSection :=
  [⟨⟨1, false, false, fun _ => false, [], [], [], ':'⟩, (" period is 9 months." : String).data⟩,
   ⟨⟨0, true, false, fun k => k == 0, [], [], [' '], '-'⟩, (" Proceed." : String).data⟩,
   ⟨⟨3, false, false, fun _ => false, [' '], [' '], [], ':'⟩, (" churn risk." : String).data⟩]

theorem splitAux_word (w : List Char) (hw : ∀ c ∈ w, wsChar c = false) :
    ∀ (cs acc : List Char), acc ≠ [] ∨ w ≠ [] →
      splitAux (w ++ ' ' :: cs) acc = (acc.reverse ++ w) :: splitAux cs [] := by
  induction w with
  | nil =>
    intro cs acc hne
    have hacc : acc.isEmpty = false := by
      rcases hne with h | h
      · cases acc with
        | nil => exact absurd rfl h
        | cons a t => rfl
      · exact absurd rfl h
    simp [splitAux, hacc, wsChar]
  | cons c w' ih =>
    intro cs acc _
    have hc : wsChar c = false := hw c (by simp)
    have hw' : ∀ x ∈ w', wsChar x = false := fun x hx => hw x (by simp [hx])
    have h2 := ih hw' cs (c :: acc) (Or.inl (by simp))
    show splitAux (c :: (w' ++ ' ' :: cs)) acc = _
    rw [show splitAux (c :: (w' ++ ' ' :: cs)) acc
          = splitAux (w' ++ ' ' :: cs) (c :: acc) by simp [splitAux, hc]]
    rw [h2, List.reverse_cons, List.append_assoc]
    simp only [List.singleton_append]

theorem splitAux_last (w : List Char) (hw : ∀ c ∈ w, wsChar c = false) :
    ∀ acc : List Char, acc ≠ [] ∨ w ≠ [] → splitAux w acc = [acc.reverse ++ w] := by
  induction w with
  | nil =>
    intro acc hne
    have hacc : acc.isEmpty = false := by
      rcases hne with h | h
      · cases acc with
        | nil => exact absurd rfl h
        | cons a t => rfl
      · exact absurd rfl h
    simp [splitAux, hacc]
  | cons c w' ih =>
    intro acc _
    have hc : wsChar c = false := hw c (by simp)
    have hw' : ∀ x ∈ w', wsChar x = false := fun x hx => hw x (by simp [hx])
    have := ih hw' (c :: acc) (Or.inl (by simp))
    simp only [splitAux, hc, Bool.false_eq_true, if_false, this, List.reverse_cons,
      List.append_assoc, List.cons_append, List.nil_append]

theorem splitWs_word_cons (w cs : List Char) (hw : ∀ c ∈ w, wsChar c = false)
    (hne : w ≠ []) : splitWs (w ++ ' ' :: cs) = w :: splitWs cs := by
  unfold splitWs
  rw [splitAux_word w hw cs [] (Or.inr hne)]
  simp

theorem splitWs_single (w : List Char) (hw : ∀ c ∈ w, wsChar c = false)
    (hne : w ≠ []) : splitWs w = [w] := by
  unfold splitWs
  rw [splitAux_last w hw [] (Or.inr hne)]
  simp

theorem splitAux_tokens (cs : List Char) :
    ∀ acc : List Char, (∀ c ∈ acc, wsChar c = false) →
      ∀ w ∈ splitAux cs acc, w ≠ [] ∧ ∀ c ∈ w, wsChar c = false := by
  induction cs with
  | nil =>
    intro acc hacc w hmem
    unfold splitAux at hmem
    by_cases h : acc.isEmpty
    · simp [h] at hmem
    · simp only [h, Bool.false_eq_true, if_false, List.mem_singleton] at hmem
      subst hmem
      refine ⟨?_, fun c hc => hacc c (List.mem_reverse.mp hc)⟩
      intro habs
      exact h (by simp [List.reverse_eq_nil_iff.mp habs])
  | cons c cs ih =>
    intro acc hacc w hmem
    unfold splitAux at hmem
    by_cases hc : wsChar c
    · simp only [hc, if_true] at hmem
      by_cases h : acc.isEmpty
      · simp only [h, if_true] at hmem
        exact ih [] (by simp) w hmem
      · simp only [h, Bool.false_eq_true, if_false, List.mem_cons] at hmem
        rcases hmem with rfl | hmem
        · refine ⟨?_, fun x hx => hacc x (List.mem_reverse.mp hx)⟩
          intro habs
          exact h (by simp [List.reverse_eq_nil_iff.mp habs])
        · exact ih [] (by simp) w hmem
    · simp only [hc, Bool.false_eq_true, if_false] at hmem
      refine ih (c :: acc) ?_ w hmem
      intro x hx
      rcases List.mem_cons.mp hx with rfl | hx
      · simpa using hc
      · exact hacc x hx

theorem splitWs_tokens (cs : List Char) :
    ∀ w ∈ splitWs cs, w ≠ [] ∧ ∀ c ∈ w, wsChar c = false :=
  splitAux_tokens cs [] (by simp)

theorem splitWs_join_ellipsis :
    ∀ l : List (List Char), (∀ w ∈ l, w ≠ [] ∧ ∀ c ∈ w, wsChar c = false) →
      splitWs (joinSpace l ++ [' ', '…']) = l ++ [['…']] := by
  intro l
  induction l with
  | nil => intro _; decide
  | cons w l' ih =>
    intro h
    obtain ⟨hne, hw⟩ := h w (by simp)
    cases l' with
    | nil =>
      show splitWs (w ++ [' ', '…']) = [w, ['…']]
      have : splitWs (w ++ ' ' :: ['…']) = w :: splitWs ['…'] :=
        splitWs_word_cons w ['…'] hw hne
      simpa [show splitWs ['…'] = [['…']] by decide] using this
    | cons w' l'' =>
      show splitWs ((w ++ ' ' :: joinSpace (w' :: l'')) ++ [' ', '…']) = _
      rw [List.append_assoc, List.cons_append]
      rw [splitWs_word_cons w _ hw hne]
      rw [ih (fun x hx => h x (by simp [hx]))]
      simp

/-- Shared cap fact: over the limit, the capped words are the first `limit`
words plus the marker token. -/
theorem wordCap_big (md : List Char) (limit : Nat) (h : limit < wordCount md) :
    splitWs (_word_cap md limit) = (splitWs md).take limit ++ [['…']] := by
  unfold wordCount at h
  unfold _word_cap
  rw [if_neg (by omega)]
  exact splitWs_join_ellipsis _
    (fun w hw => splitWs_tokens md w (List.take_subset _ _ hw))

/-- Cap bound usable without the claim-level theorem. -/
theorem wordCap_count_le (md : List Char) (limit : Nat) :
    wordCount (_word_cap md limit) ≤ limit + 1 := by
  by_cases h : wordCount md ≤ limit
  · unfold wordCount at h ⊢
    simp only [_word_cap]
    rw [if_pos h]
    omega
  · have hbig := wordCap_big md limit (by omega)
    unfold wordCount
    rw [hbig, List.length_append, List.length_take]
    simp only [List.length_singleton]
    omega

/-- C6: `_word_cap` splits on whitespace; when the word count exceeds the
limit it returns the first `limit` words followed by the truncation marker
`…` (so its word count is `limit + 1 ≤ limit + 1` and the kept words — all
words but the marker — are a prefix of the original word sequence); otherwise
it returns the input unchanged. -/
theorem word_cap_spec (md : List Char) (limit : Nat) :
    (wordCount md ≤ limit → _word_cap md limit = md) ∧
    (limit < wordCount md →
      splitWs (_word_cap md limit) = (splitWs md).take limit ++ [['…']] ∧
      wordCount (_word_cap md limit) = limit + 1 ∧
      (splitWs (_word_cap md limit)).dropLast <+: splitWs md) := by
  constructor
  · intro h
    unfold wordCount at h
    simp only [_word_cap]
    rw [if_pos h]
  · intro h
    have heq := wordCap_big md limit h
    unfold wordCount at h ⊢
    refine ⟨heq, ?_, ?_⟩
    · rw [heq, List.length_append, List.length_take]
      simp only [List.length_singleton]
      omega
    · rw [heq, List.dropLast_concat]
      exact ⟨(splitWs md).drop limit, List.take_append_drop _ _⟩

/-- Witness for `word_cap_spec`: both branches at concrete inputs. -/
theorem word_cap_spec_witness :
    (wordCount "a b c d".data ≤ 9 ∧ _word_cap "a b c d".data 9 = "a b c d".data) ∧
    (2 < wordCount "a b c d".data ∧
      splitWs (_word_cap "a b c d".data 2) = (splitWs "a b c d".data).take 2 ++ [['…']]) :=
  ⟨⟨by decide, (word_cap_spec "a b c d".data 9).1 (by decide)⟩,
   ⟨by decide, ((word_cap_spec "a b c d".data 2).2 (by decide)).1⟩⟩

/-! ## Lens-engine totality lemmas (for C5) -/

/-- The scanner never erases the last non-whitespace character: a replacement
contains one (`hr`) and copied characters are preserved. -/
theorem subGo_any_nonws (a : List Atom) (r : List Char)
    (hr : r.any (fun c => !wsChar c) = true) :
    ∀ (f : Nat) (cs : List Char), cs.any (fun c => !wsChar c) = true →
      (subGo a r f cs).any (fun c => !wsChar c) = true := by
  intro f
  induction f with
  | zero =>
    intro cs h
    cases cs with
    | nil => simpa using h
    | cons c cs => simpa [subGo] using h
  | succ f ih =>
    intro cs h
    cases cs with
    | nil => simpa using h
    | cons c cs =>
      by_cases hc : c = '\n'
      · subst hc
        rw [show subGo a r (f + 1) ('\n' :: cs)
              = match coreMatch a cs with
                | some rest => r ++ subGo a r f rest
                | none => '\n' :: subGo a r f cs by simp [subGo]]
        cases hm : coreMatch a cs with
        | some rest => simp [List.any_append, hr]
        | none =>
          simp only [List.any_cons] at h ⊢
          have : (!wsChar '\n') = false := by decide
          rw [this] at h ⊢
          simpa using ih cs (by simpa using h)
      · rw [show subGo a r (f + 1) (c :: cs) = c :: subGo a r f cs by
          simp [subGo, hc]]
        simp only [List.any_cons] at h ⊢
        cases hnw : (!wsChar c) with
        | true => simp
        | false =>
          rw [hnw] at h
          simpa using ih cs (by simpa using h)

theorem subL_any_nonws (a : List Atom) (r : List Char)
    (hr : r.any (fun c => !wsChar c) = true)
    (cs : List Char) (h : cs.any (fun c => !wsChar c) = true) :
    (subL a r cs).any (fun c => !wsChar c) = true := by
  unfold subL
  cases hm : coreMatch a cs with
  | some rest => simp [List.any_append, hr]
  | none => exact subGo_any_nonws a r hr _ cs h

theorem replFor_any (L : String) : (replFor L).any (fun c => !wsChar c) = true := by
  simp [replFor, wsChar]

theorem dropWhile_any_nonws (cs : List Char) :
    ((cs.dropWhile wsChar).any fun c => !wsChar c) = cs.any fun c => !wsChar c := by
  induction cs with
  | nil => rfl
  | cons c cs ih =>
    by_cases hc : wsChar c
    · simp [List.dropWhile_cons, hc, ih]
    · simp [List.dropWhile_cons, hc]

theorem stripL_ne_nil (cs : List Char) (h : cs.any (fun c => !wsChar c) = true) :
    stripL cs ≠ [] := by
  unfold stripL
  intro habs
  have : ((((cs.dropWhile wsChar).reverse).dropWhile wsChar).reverse.any
      fun c => !wsChar c) = true := by
    rw [List.any_reverse, dropWhile_any_nonws, List.any_reverse,
      dropWhile_any_nonws]
    exact h
  rw [habs] at this
  simp at this

theorem normalize_ne_nil (md : List Char) (h : md.any (fun c => !wsChar c) = true) :
    _normalize_headers md ≠ [] := by
  unfold _normalize_headers
  exact stripL_ne_nil _
    (subL_any_nonws _ _ (replFor_any _) _
      (subL_any_nonws _ _ (replFor_any _) _
        (subL_any_nonws _ _ (replFor_any _) _
          (subL_any_nonws _ _ (replFor_any _) _ h))))

theorem fallback_any_nonws (lens text : String) :
    ((_fallback_lens_text lens text).any fun c => !wsChar c) = true := by
  unfold _fallback_lens_text
  split_ifs <;> first
    | decide
    | (rw [String.data_append, List.any_append]
       have : ("Lens applied: ".data.any fun c => !wsChar c) = true := by decide
       simp [this])

theorem run_lens_ne_nil (lens text : String) : run_lens lens text ≠ [] := by
  unfold run_lens
  have h2 : ((_normalize_headers (_fallback_lens_text lens text)).any
      fun c => !wsChar c) = true := by
    unfold _normalize_headers stripL
    rw [List.any_reverse, dropWhile_any_nonws, List.any_reverse, dropWhile_any_nonws]
    exact subL_any_nonws _ _ (replFor_any _) _
      (subL_any_nonws _ _ (replFor_any _) _
        (subL_any_nonws _ _ (replFor_any _) _
          (subL_any_nonws _ _ (replFor_any _) _ (fallback_any_nonws lens text))))
  by_cases h : wordCount (_normalize_headers (_fallback_lens_text lens text))
      ≤ MAX_LENS_WORDS
  · unfold wordCount at h
    simp only [_word_cap]
    rw [if_pos h]
    intro habs
    rw [habs] at h2
    simp at h2
  · unfold wordCount at h
    simp only [_word_cap]
    rw [if_neg h]
    simp

theorem fallback_unrecognized (lens text : String) (h : lens ∉ lensIds) :
    _fallback_lens_text lens text = ("Lens applied: " ++ lens).data := by
  simp only [lensIds, List.mem_cons, List.not_mem_nil, or_false, not_or] at h
  obtain ⟨h1, h2, h3, h4, h5⟩ := h
  simp [_fallback_lens_text, h1, h2, h3, h4, h5]

/-- C5: with the generation backend unavailable (`_oa is None`) the embedded
`run_lens` is a total function of `(lens, text)`; for every lens id and every
text it returns a non-empty string whose word count obeys the cap
(`MAX_LENS_WORDS + 1` counting the appended marker), and an unrecognized lens
id takes the generic `"Lens applied: ..."` fallback text rather than an error
path. -/
theorem run_lens_total_spec (lens text : String) :
    run_lens lens text ≠ [] ∧
    wordCount (run_lens lens text) ≤ MAX_LENS_WORDS + 1 ∧
    (lens ∉ lensIds →
      _fallback_lens_text lens text = ("Lens applied: " ++ lens).data) :=
  ⟨run_lens_ne_nil lens text,
   by unfold run_lens; exact wordCap_count_le _ _,
   fallback_unrecognized lens text⟩

/-- Witness for `run_lens_total_spec` at an unrecognized lens id. -/
theorem run_lens_total_spec_witness :
    "mystery" ∉ lensIds ∧
    _fallback_lens_text "mystery" "anything" = ("Lens applied: " ++ "mystery").data ∧
    run_lens "mystery" "anything" ≠ [] :=
  ⟨by decide,
   (run_lens_total_spec "mystery" "anything").2.2 (by decide),
   (run_lens_total_spec "mystery" "anything").1⟩

/-! ## Dispatcher claim theorems -/

/-- C4: on each of the three platform endpoints a failed signature check
yields the 401 unauthorized response with no effects at all: no payload field
is consulted, no Interaction Log attempt is made and the Lens Engine is never
invoked. -/
theorem unauthorized_rejected (b : EventsBody) (p : IPayload) (f : CommandsForm) :
    slack_events false b = ([], .unauthorized) ∧
    interactivity false p = ([], .unauthorized) ∧
    commands false f = ([], .unauthorized) ∧
    Response.status .unauthorized = 401 := by
  refine ⟨?_, ?_, ?_, rfl⟩ <;> simp [slack_events, interactivity, commands]

/-- C3: every verified `block_actions` payload is answered by the TEMP block
with a pushed fixed "Test Modal" view and no effects — in particular no
Interaction Log write and no lens dispatch occur at any point — regardless of
action id, selected value or message content. -/
theorem block_actions_test_modal (p : IPayload) (h : p.type = "block_actions") :
    interactivity true p = ([], .pushView testModalView) ∧
    testModalView.title = "Test Modal" := by
  exact ⟨by simp [interactivity, h], rfl⟩

/-- Witness for `block_actions_test_modal`. -/
theorem block_actions_test_modal_witness :
    c3Payload.type = "block_actions" ∧
    interactivity true c3Payload = ([], .pushView testModalView) :=
  ⟨rfl, (block_actions_test_modal c3Payload rfl).1⟩

/-- C2: evaluation at the failing input.  The spec's table demands an
ephemeral in-progress notice, a synchronous Lens Engine run, an ephemeral
result and an empty ack; the shipped handler instead answers with the pushed
"Test Modal" and performs no effects at all, because the TEMP block (app.py
lines 135-149, marked "remove after we see it") intercepts every
`block_actions` payload.  The input does satisfy the lens-selection condition
and carries usable text, so only the TEMP block prevents the specified
behaviour. -/
theorem block_actions_lens_click_bug :
    interactivity true c2Payload = ([], .pushView testModalView) ∧
    hasContext c2Payload.message_text.data = true ∧
    lensIds.contains c2Payload.action_value = true := by
  refine ⟨by simp [interactivity, c2Payload], by decide, by decide⟩

/-- C10: `/api/lens` performs no signature verification: every request is
answered 200 (never 401 unauthorized), the Lens Engine runs on the request's
lens and text, and exactly one Interaction Log record attempt is made. -/
theorem api_lens_unauthenticated (d : ApiLensData) :
    (api_lens d).2 ≠ .unauthorized ∧
    (api_lens d).2.status = 200 ∧
    Effect.lensRun (d.lens.getD "cfo_skeptic") (d.text.getD "") ∈ (api_lens d).1 ∧
    logCount (api_lens d).1 = 1 := by
  refine ⟨by simp [api_lens], by simp [api_lens, Response.status],
    by simp [api_lens], by simp [api_lens, logCount]⟩

/-- C1 amended: a verified callback produces exactly one Interaction Log
record attempt on the commands endpoint; exactly one on the interactivity
endpoint unless the payload is `block_actions` (TEMP block: zero); and on the
events endpoint exactly one for non-bot `message` event callbacks and zero
otherwise (`url_verification`, bot messages, `app_mention`, unknown types). -/
theorem log_attempt_characterization (b : EventsBody) (p : IPayload)
    (f : CommandsForm) :
    logCount (slack_events true b).1 = expectedEventsLogs b ∧
    logCount (interactivity true p).1 = expectedInteractivityLogs p ∧
    logCount (commands true f).1 = 1 := by
  refine ⟨?_, ?_, ?_⟩
  · unfold slack_events expectedEventsLogs logCount
    rw [if_neg (by simp)]
    split_ifs <;> simp_all [List.filter_append]
  · unfold interactivity expectedInteractivityLogs logCount
    rw [if_neg (by simp)]
    by_cases hb : p.type == "block_actions"
    · simp [hb]
    · simp only [hb, Bool.false_eq_true, if_false]
      split_ifs <;>
        first
          | simp
          | (cases hm : decodePM p.view_private_metadata <;> simp [hm])
  · unfold commands logCount
    rw [if_neg (by simp)]
    split_ifs <;> simp

/-- C1 counterexample: a verified `app_mention` event callback is handled by
the events endpoint (it posts a usage hint) yet produces zero Interaction Log
record attempts — refuting "exactly one record attempt for every verified
callback on every dispatcher endpoint and payload kind". -/
theorem log_attempt_counterexample :
    logCount (slack_events true c1Mention).1 = 0 ∧
    (slack_events true c1Mention).1 ≠ [] := by
  constructor <;> decide

/-! ## Private-metadata round trip (C9) -/

theorem expectPfx_append (p r : List Char) : expectPfx p (p ++ r) = some r := by
  induction p with
  | nil => rfl
  | cons c p ih => simp [expectPfx, ih]

theorem takeWhile_quote_append (l r : List Char) (hl : ∀ c ∈ l, c ≠ '"') :
    (l ++ '"' :: r).takeWhile (fun c => c != '"') = l := by
  induction l with
  | nil => simp [List.takeWhile_cons]
  | cons c l ih =>
    have h1 : (c != '"') = true := by
      simpa [bne_iff_ne] using hl c (by simp)
    simp only [List.cons_append, List.takeWhile_cons, h1, if_true]
    rw [ih (fun x hx => hl x (by simp [hx]))]

theorem dropWhile_quote_append (l r : List Char) (hl : ∀ c ∈ l, c ≠ '"') :
    (l ++ '"' :: r).dropWhile (fun c => c != '"') = '"' :: r := by
  induction l with
  | nil => simp [List.dropWhile_cons]
  | cons c l ih =>
    have h1 : (c != '"') = true := by
      simpa [bne_iff_ne] using hl c (by simp)
    simp only [List.cons_append, List.dropWhile_cons, h1, if_true]
    exact ih (fun x hx => hl x (by simp [hx]))

/-- The dispatcher-written private metadata decodes back to the triple that
was written, for field strings `json.dumps` passes through verbatim. -/
theorem decodePM_encodePM (m : PMeta) (hl : jsonSafeStr m.lens = true)
    (hc : jsonSafeStr m.channel_id = true) (hu : jsonSafeStr m.user_id = true) :
    decodePM (encodePM m) = some m := by
  have safe : ∀ s : String, jsonSafeStr s = true → ∀ c ∈ s.data, c ≠ '"' := by
    intro s hs c hcs
    have := List.all_eq_true.mp hs c hcs
    simp only [Bool.and_eq_true, bne_iff_ne, ne_eq, decide_eq_true_eq] at this
    exact this.1.1.1
  have hL := safe _ hl
  have hC := safe _ hc
  have hU := safe _ hu
  have hsep1 : pmSep1 = '"' :: ", \"channel_id\": \"".data := by decide
  have hsep2 : pmSep2 = '"' :: ", \"user_id\": \"".data := by decide
  have hsuf : pmSuffix = '"' :: "\x7d".data := by decide
  have hdata : (encodePM m).data
      = pmPrefix1 ++ (m.lens.data ++ (pmSep1 ++ (m.channel_id.data
        ++ (pmSep2 ++ (m.user_id.data ++ pmSuffix))))) := by
    simp only [encodePM, String.data_append, List.append_assoc]
    rfl
  unfold decodePM
  rw [hdata, expectPfx_append, Option.some_bind]
  rw [show m.lens.data ++ (pmSep1 ++ (m.channel_id.data ++ (pmSep2
        ++ (m.user_id.data ++ pmSuffix))))
      = m.lens.data ++ '"' :: (", \"channel_id\": \"".data ++ (m.channel_id.data
        ++ (pmSep2 ++ (m.user_id.data ++ pmSuffix)))) by
    rw [hsep1]; simp [List.append_assoc]]
  rw [dropWhile_quote_append _ _ hL, takeWhile_quote_append _ _ hL]
  rw [show ('"' : Char) :: (", \"channel_id\": \"".data ++ (m.channel_id.data
        ++ (pmSep2 ++ (m.user_id.data ++ pmSuffix))))
      = pmSep1 ++ (m.channel_id.data ++ (pmSep2 ++ (m.user_id.data ++ pmSuffix)))
      by rw [hsep1]; simp]
  rw [expectPfx_append, Option.some_bind]
  rw [show m.channel_id.data ++ (pmSep2 ++ (m.user_id.data ++ pmSuffix))
      = m.channel_id.data ++ '"' :: (", \"user_id\": \"".data
        ++ (m.user_id.data ++ pmSuffix)) by
    rw [hsep2]; simp [List.append_assoc]]
  rw [dropWhile_quote_append _ _ hC, takeWhile_quote_append _ _ hC]
  rw [show ('"' : Char) :: (", \"user_id\": \"".data ++ (m.user_id.data ++ pmSuffix))
      = pmSep2 ++ (m.user_id.data ++ pmSuffix) by rw [hsep2]; simp]
  rw [expectPfx_append, Option.some_bind]
  rw [show m.user_id.data ++ pmSuffix = m.user_id.data ++ '"' :: "\x7d".data by
    rw [hsuf]]
  rw [dropWhile_quote_append _ _ hU, takeWhile_quote_append _ _ hU]
  rw [show ('"' : Char) :: "\x7d".data = pmSuffix ++ [] by rw [hsuf]; simp]
  rw [expectPfx_append]

/-- C9: for a verified `view_submission` whose callback id is the lens-context
modal and whose private metadata is what the dispatcher wrote at modal-open
time, the metadata decodes to the same `(lens, channel_id, user_id)` triple,
the handler posts the in-progress ephemeral to that channel/user, enqueues one
Delivery Worker with `(lens, stripped pasted text, channel_id, user_id)`, and
answers with the `clear` directive. -/
theorem view_submission_roundtrip (m : PMeta) (p : IPayload)
    (hl : jsonSafeStr m.lens = true) (hc : jsonSafeStr m.channel_id = true)
    (hu : jsonSafeStr m.user_id = true) (ht : p.type = "view_submission")
    (hcb : p.view_callback_id = "lens_modal")
    (hpm : p.view_private_metadata = encodePM m) :
    decodePM p.view_private_metadata = some m ∧
    interactivity true p =
      ([Effect.logAttempt "interaction" p.message_text p.user_id (chanOf p),
        Effect.postEphemeral m.channel_id m.user_id
          ("⏳ " ++ LENS_NAMES m.lens ++ " analysis…"),
        Effect.spawnWorker m.lens (String.mk (stripL p.view_ctx_value.data))
          m.channel_id m.user_id],
       .clearView) := by
  have hdec : decodePM p.view_private_metadata = some m := by
    rw [hpm]
    exact decodePM_encodePM m hl hc hu
  refine ⟨hdec, ?_⟩
  unfold interactivity
  rw [if_neg (by simp)]
  simp [ht, hcb, hdec]

/-- Witness for `view_submission_roundtrip`. -/
theorem view_submission_roundtrip_witness :
    jsonSafeStr c9Meta.lens = true ∧
    decodePM c9Payload.view_private_metadata = some c9Meta ∧
    (interactivity true c9Payload).2 = .clearView ∧
    Effect.spawnWorker "scaler" "Launch feature Y" "C9" "U9"
      ∈ (interactivity true c9Payload).1 := by
  have h := view_submission_roundtrip c9Meta c9Payload (by decide) (by decide)
    (by decide) rfl rfl rfl
  refine ⟨by decide, h.1, ?_, ?_⟩
  · rw [h.2]
  · rw [h.2]
    have : String.mk (stripL c9Payload.view_ctx_value.data) = "Launch feature Y" := by
      decide
    simp [this, c9Meta]

/-! ## Usable source text (C8) -/

/-- C8 counterexample: a message whose text merely contains the picker phrase
is treated by the code as having no usable context (`has_context` is false),
while the claim's equality test calls it usable — the code tests substring
containment (`picker_text not in orig_text.lower()`), not equality. -/
theorem usable_text_counterexample :
    hasContext "Note: which lens do you want to apply is the question".data
      = false ∧
    specUsableText "Note: which lens do you want to apply is the question".data
      = true := by
  constructor <;> decide

/-- C8 amended: in the `block_actions` lens-selection branch, the message
text counts as usable iff it is non-empty after trimming and its lowercase
form does not contain the picker prompt substring; with unusable text the
branch answers with a pushed context modal whose private metadata is the
encoded `(lens, channel, user)` triple, and with usable text it runs the lens
synchronously.  (The branch itself is shadowed by the TEMP test-modal return
in the shipped handler; see C2/C3.) -/
theorem lens_branch_usable_text (p : IPayload)
    (hsel : (p.action_id.startsWith "lens_" || lensIds.contains p.action_value)
      = true)
    (hnp : p.action_id ≠ "post_lens") :
    (amendedUsableText p.message_text.data = false →
      lensBranch p =
        ([Effect.postEphemeral (chanOf p) p.user_id
            ("⏳ " ++ LENS_NAMES p.action_value ++ " analysis…")],
         .pushView ⟨LENS_NAMES p.action_value ++ " Lens", "lens_modal",
                     encodePM ⟨p.action_value, chanOf p, p.user_id⟩⟩)) ∧
    (amendedUsableText p.message_text.data = true →
      lensBranch p =
        ([Effect.postEphemeral (chanOf p) p.user_id
            ("⏳ " ++ LENS_NAMES p.action_value ++ " analysis…"),
          Effect.lensRun p.action_value p.message_text,
          Effect.postEphemeral (chanOf p) p.user_id (LENS_NAMES p.action_value)],
         .emptyOk)) := by
  have hnp' : (p.action_id == "post_lens") = false := by
    simpa [beq_iff_eq] using hnp
  have hcode : hasContext p.message_text.data = amendedUsableText p.message_text.data :=
    rfl
  constructor <;> intro h <;> unfold lensBranch <;>
    simp only [hnp', Bool.false_eq_true, if_false, hsel, if_true, hcode, h]

/-- Witness for `lens_branch_usable_text`: a click on the picker message
itself (its text contains the picker phrase) takes the modal path. -/
theorem lens_branch_usable_text_witness :
    (c8Payload.action_id.startsWith "lens_" || lensIds.contains c8Payload.action_value)
      = true ∧
    amendedUsableText c8Payload.message_text.data = false ∧
    lensBranch c8Payload =
      ([Effect.postEphemeral "C8" "U8" "⏳ CFO Skeptic analysis…"],
       .pushView ⟨"CFO Skeptic Lens", "lens_modal",
                   encodePM ⟨"cfo_skeptic", "C8", "U8"⟩⟩) := by
  refine ⟨by simp [c8Payload, lensIds], by decide, ?_⟩
  have h := (lens_branch_usable_text c8Payload
    (by simp [c8Payload, lensIds]) (by decide)).1 (by decide)
  rw [h]
  rfl

/-! ## Scanner equations (C7, layer A) -/

theorem length_dropWhile_le (p : Char → Bool) (l : List Char) :
    (l.dropWhile p).length ≤ l.length := by
  induction l with
  | nil => simp
  | cons c l ih =>
    rw [List.dropWhile_cons]
    split_ifs
    · simp only [List.length_cons]
      omega
    · simp

theorem dropStar_length (cs : List Char) : (dropStar cs).length ≤ cs.length := by
  unfold dropStar
  split
  · simp
  · exact Nat.le_refl _

theorem matchAtoms_length :
    ∀ (as : List Atom) (cs r : List Char), matchAtoms as cs = some r →
      r.length ≤ cs.length := by
  intro as
  induction as with
  | nil =>
    intro cs r h
    simp only [matchAtoms, Option.some_inj] at h
    subst h
    exact Nat.le_refl _
  | cons a as ih =>
    intro cs r h
    cases a with
    | ch x =>
      cases cs with
      | nil => simp [matchAtoms] at h
      | cons c cs =>
        simp only [matchAtoms] at h
        split_ifs at h
        exact Nat.le_trans (ih cs r h) (by simp)
    | amp =>
      simp only [matchAtoms] at h
      split at h
      · rename_i cs₂ heq
        have h1 := ih _ _ h
        have h2 := length_dropWhile_le wsChar cs₂
        have h3 := length_dropWhile_le wsChar cs
        rw [heq] at h3
        simp only [List.length_cons] at h3
        omega
      · simp at h

theorem sepStage_length (u r : List Char) (h : sepStage u = some r) :
    r.length ≤ u.length := by
  unfold sepStage at h
  split at h
  · rename_i c r₃ heq
    split_ifs at h
    obtain rfl : r₃ = r := by injection h
    have h1 := length_dropWhile_le wsChar (dropStar u)
    rw [heq] at h1
    have h2 := dropStar_length u
    simp only [List.length_cons] at h1
    omega
  · simp at h

theorem coreMatch_length (a : List Atom) (cs r : List Char)
    (h : coreMatch a cs = some r) : r.length ≤ cs.length := by
  unfold coreMatch at h
  cases hm : matchAtoms a (dropStar cs) with
  | none => rw [hm] at h; simp at h
  | some u =>
    rw [hm] at h
    simp only [Option.some_bind] at h
    have h1 := matchAtoms_length a _ u hm
    have h2 := sepStage_length u r h
    have h3 := dropStar_length cs
    omega

theorem subGo_fuel (a : List Atom) (r : List Char) :
    ∀ (f g : Nat) (cs : List Char), cs.length ≤ f → cs.length ≤ g →
      subGo a r f cs = subGo a r g cs := by
  intro f
  induction f with
  | zero =>
    intro g cs hf _
    cases cs with
    | nil => cases g <;> rfl
    | cons c cs => simp at hf
  | succ f ih =>
    intro g cs hf hg
    cases cs with
    | nil => cases g <;> rfl
    | cons c cs =>
      cases g with
      | zero => simp at hg
      | succ g =>
        have hf' : cs.length ≤ f := by
          simp only [List.length_cons] at hf; omega
        have hg' : cs.length ≤ g := by
          simp only [List.length_cons] at hg; omega
        by_cases hc : c = '\n'
        · subst hc
          cases hm : coreMatch a cs with
          | some rest =>
            have hr := coreMatch_length a cs rest hm
            rw [show subGo a r (f + 1) ('\n' :: cs) = r ++ subGo a r f rest by
                  simp [subGo, hm],
                show subGo a r (g + 1) ('\n' :: cs) = r ++ subGo a r g rest by
                  simp [subGo, hm]]
            rw [ih g rest (by omega) (by omega)]
          | none =>
            rw [show subGo a r (f + 1) ('\n' :: cs) = '\n' :: subGo a r f cs by
                  simp [subGo, hm],
                show subGo a r (g + 1) ('\n' :: cs) = '\n' :: subGo a r g cs by
                  simp [subGo, hm]]
            rw [ih g cs hf' hg']
        · rw [show subGo a r (f + 1) (c :: cs) = c :: subGo a r f cs by
                simp [subGo, hc],
              show subGo a r (g + 1) (c :: cs) = c :: subGo a r g cs by
                simp [subGo, hc]]
          rw [ih g cs hf' hg']

theorem scan_cons (a : List Atom) (r : List Char) (c : Char) (cs : List Char)
    (hc : c ≠ '\n') : scan a r (c :: cs) = c :: scan a r cs := by
  unfold scan
  rw [show (c :: cs).length = cs.length + 1 from rfl]
  simp [subGo, hc]

theorem scan_nl_match (a : List Atom) (r : List Char) (cs rest : List Char)
    (h : coreMatch a cs = some rest) :
    scan a r ('\n' :: cs) = r ++ scan a r rest := by
  unfold scan
  rw [show ('\n' :: cs).length = cs.length + 1 from rfl]
  rw [show subGo a r (cs.length + 1) ('\n' :: cs)
        = r ++ subGo a r cs.length rest by simp [subGo, h]]
  rw [subGo_fuel a r cs.length rest.length rest (coreMatch_length a cs rest h)
    (Nat.le_refl _)]

theorem scan_nl_nomatch (a : List Atom) (r : List Char) (cs : List Char)
    (h : coreMatch a cs = none) :
    scan a r ('\n' :: cs) = '\n' :: scan a r cs := by
  unfold scan
  rw [show ('\n' :: cs).length = cs.length + 1 from rfl]
  simp [subGo, h]

theorem scan_append_nonl (a : List Atom) (rp l r : List Char)
    (hl : ∀ c ∈ l, c ≠ '\n') : scan a rp (l ++ r) = l ++ scan a rp r := by
  induction l with
  | nil => rfl
  | cons c l ih =>
    rw [List.cons_append, scan_cons a rp c _ (hl c (by simp)),
      ih (fun x hx => hl x (by simp [hx])), List.cons_append]

/-! ## Continuation extension (C7, layer B): a pattern match can never reach
across a body/section boundary into the following rendered heading. -/

theorem matchAtoms_amp_eq (as : List Atom) (cs : List Char) :
    matchAtoms (Atom.amp :: as) cs
      = match cs.dropWhile wsChar with
        | '&' :: cs₂ => matchAtoms as (cs₂.dropWhile wsChar)
        | _ => none := rfl

theorem amp_match_ne (as : List Atom) (d : Char)
    (X : List Char) (hd : d ≠ '&') :
    (match d :: X with
     | '&' :: cs₂ => matchAtoms as (cs₂.dropWhile wsChar)
     | _ => none) = none := by
  split
  · simp_all
  · rfl

theorem matchAtoms_ch_goodCont (x : Char) (as : List Atom)
    (hx : x.toLower ≠ '\n') (r : List Char) (hr : goodCont r) :
    matchAtoms (Atom.ch x :: as) r = none := by
  rcases hr with rfl | rfl | ⟨c, r', rfl, _, _, _, _⟩
  · rfl
  · have h0 : ('\n' : Char).toLower ≠ x.toLower := by
      rw [show ('\n' : Char).toLower = '\n' from by decide]
      exact fun h => hx h.symm
    show (if ('\n' : Char).toLower = x.toLower then matchAtoms as [] else none)
      = none
    rw [if_neg h0]
  · have h0 : ('\n' : Char).toLower ≠ x.toLower := by
      rw [show ('\n' : Char).toLower = '\n' from by decide]
      exact fun h => hx h.symm
    show (if ('\n' : Char).toLower = x.toLower then matchAtoms as (c :: r')
        else none) = none
    rw [if_neg h0]

theorem dropWhile_goodCont (r : List Char) (hr : goodCont r) :
    r.dropWhile wsChar = [] ∨
      ∃ c r', r.dropWhile wsChar = c :: r' ∧ wsChar c = false
        ∧ sepChar c = false ∧ c ≠ '&' ∧ c.toLower ≠ 'm' := by
  rcases hr with rfl | rfl | ⟨c, r', rfl, h1, h2, h3, h4⟩
  · exact Or.inl rfl
  · exact Or.inl (by decide)
  · refine Or.inr ⟨c, r', ?_, h1, h2, h3, h4⟩
    rw [List.dropWhile_cons, if_pos (by decide), List.dropWhile_cons, h1]
    simp

theorem matchAtoms_amp_goodCont (as : List Atom) (r : List Char)
    (hr : goodCont r) : matchAtoms (Atom.amp :: as) r = none := by
  rw [matchAtoms_amp_eq]
  rcases dropWhile_goodCont r hr with h | ⟨c, r', h, _, _, hc, _⟩
  · rw [h]
  · rw [h]
    exact amp_match_ne _ c r' hc

theorem matchAtoms_chm_dropWhile_goodCont (m2 : Char) (rest : List Atom)
    (hm : m2.toLower = 'm') (r : List Char) (hr : goodCont r) :
    matchAtoms (Atom.ch m2 :: rest) (r.dropWhile wsChar) = none := by
  rcases dropWhile_goodCont r hr with h | ⟨c, r', h, _, _, _, hcm⟩
  · rw [h]
    rfl
  · rw [h]
    have : c.toLower ≠ m2.toLower := by rw [hm]; exact hcm
    simp [matchAtoms, this]

theorem matchAtoms_ext (as : List Atom) (ha : atomsOK as = true) :
    ∀ (t r : List Char), goodCont r →
      matchAtoms as (t ++ r) = (matchAtoms as t).map (· ++ r) := by
  induction as with
  | nil => intro t r _; simp [matchAtoms]
  | cons a as ih =>
    intro t r hr
    cases a with
    | ch x =>
      have hx : x.toLower ≠ '\n' := by
        simp only [atomsOK, Bool.and_eq_true, bne_iff_ne, ne_eq] at ha
        exact ha.1
      have ha' : atomsOK as = true := by
        simp only [atomsOK, Bool.and_eq_true] at ha
        exact ha.2
      cases t with
      | nil =>
        rw [List.nil_append, matchAtoms_ch_goodCont x as hx r hr]
        rfl
      | cons c t =>
        simp only [List.cons_append, matchAtoms]
        simp only [List.append_eq]
        by_cases hcx : c.toLower = x.toLower
        · rw [if_pos hcx, if_pos hcx, ih ha' t r hr]
        · rw [if_neg hcx, if_neg hcx]
          rfl
    | amp =>
      cases as with
      | nil => simp [atomsOK] at ha
      | cons a2 rest =>
        cases a2 with
        | amp => simp [atomsOK] at ha
        | ch m2 =>
          have hm : m2.toLower = 'm' ∧ m2.toLower ≠ '\n' ∧ atomsOK rest = true := by
            simp only [atomsOK, Bool.and_eq_true, beq_iff_eq, bne_iff_ne,
              ne_eq] at ha
            exact ⟨ha.1.1, ha.1.2, ha.2⟩
          have ha' : atomsOK (Atom.ch m2 :: rest) = true := by
            simp only [atomsOK, Bool.and_eq_true, bne_iff_ne, ne_eq]
            exact ⟨hm.2.1, hm.2.2⟩
          rw [matchAtoms_amp_eq, matchAtoms_amp_eq]
          by_cases hd : (t.dropWhile wsChar).isEmpty
          · have ht : t.dropWhile wsChar = [] := by
              simpa using hd
            rw [List.dropWhile_append, if_pos hd, ht]
            have lhs0 : (match r.dropWhile wsChar with
                | '&' :: cs₂ => matchAtoms (Atom.ch m2 :: rest) (cs₂.dropWhile wsChar)
                | _ => none) = none := by
              rcases dropWhile_goodCont r hr with h | ⟨c, r', h, _, _, hc, _⟩
              · rw [h]
              · rw [h]
                exact amp_match_ne _ c r' hc
            rw [lhs0]
            rfl
          · rw [List.dropWhile_append, if_neg hd]
            obtain ⟨d, ds, hds⟩ : ∃ d ds, t.dropWhile wsChar = d :: ds := by
              cases h' : t.dropWhile wsChar with
              | nil => rw [h'] at hd; simp at hd
              | cons d ds => exact ⟨d, ds, rfl⟩
            rw [hds, List.cons_append]
            by_cases hdAmp : d = '&'
            · subst hdAmp
              show matchAtoms (Atom.ch m2 :: rest) ((ds ++ r).dropWhile wsChar)
                = (matchAtoms (Atom.ch m2 :: rest) (ds.dropWhile wsChar)).map (· ++ r)
              by_cases hd2 : (ds.dropWhile wsChar).isEmpty
              · have hds2 : ds.dropWhile wsChar = [] := by simpa using hd2
                rw [List.dropWhile_append, if_pos hd2, hds2]
                rw [matchAtoms_chm_dropWhile_goodCont m2 rest hm.1 r hr]
                rfl
              · rw [List.dropWhile_append, if_neg hd2]
                exact ih ha' (ds.dropWhile wsChar) r hr
            · rw [amp_match_ne (Atom.ch m2 :: rest) d (ds ++ r) hdAmp,
                amp_match_ne (Atom.ch m2 :: rest) d ds hdAmp]
              rfl

theorem dropStar_cons_ne (c : Char) (x : List Char) (hc : c ≠ '*') :
    dropStar (c :: x) = c :: x := by
  unfold dropStar
  split
  · simp_all
  · rfl

theorem sepCheck_ext (v r : List Char) (hr : goodCont r) :
    (match (v ++ r).dropWhile wsChar with
     | c :: r₃ => if sepChar c then some r₃ else none
     | [] => none)
      = (match v.dropWhile wsChar with
         | c :: r₃ => if sepChar c then some r₃ else none
         | [] => none).map (· ++ r) := by
  by_cases hv : (v.dropWhile wsChar).isEmpty
  · have hv0 : v.dropWhile wsChar = [] := by simpa using hv
    rw [List.dropWhile_append, if_pos hv, hv0]
    rcases dropWhile_goodCont r hr with h | ⟨c, r', h, _, hsep, _, _⟩
    · rw [h]
      rfl
    · rw [h]
      simp [hsep]
  · rw [List.dropWhile_append, if_neg hv]
    obtain ⟨d, ds, hds⟩ : ∃ d ds, v.dropWhile wsChar = d :: ds := by
      cases h' : v.dropWhile wsChar with
      | nil => rw [h'] at hv; simp at hv
      | cons d ds => exact ⟨d, ds, rfl⟩
    rw [hds, List.cons_append]
    by_cases hsep : sepChar d
    · simp [hsep]
    · simp [hsep]

theorem sepStage_goodCont (r : List Char) (hr : goodCont r) :
    sepStage r = none := by
  rcases hr with rfl | rfl | ⟨c, r', rfl, hws, hsep, _, _⟩
  · rfl
  · rfl
  · unfold sepStage
    rw [show dropStar ('\n' :: c :: r') = '\n' :: c :: r' from
        dropStar_cons_ne _ _ (by decide)]
    rw [List.dropWhile_cons, if_pos (by decide), List.dropWhile_cons, hws]
    simp [hsep]

theorem sepStage_ext (u r : List Char) (hr : goodCont r) :
    sepStage (u ++ r) = (sepStage u).map (· ++ r) := by
  cases u with
  | nil =>
    rw [List.nil_append, sepStage_goodCont r hr]
    rfl
  | cons c u' =>
    by_cases hc : c = '*'
    · subst hc
      show sepStage ('*' :: (u' ++ r)) = (sepStage ('*' :: u')).map (· ++ r)
      unfold sepStage
      rw [show dropStar ('*' :: (u' ++ r)) = u' ++ r from rfl,
        show dropStar ('*' :: u') = u' from rfl]
      exact sepCheck_ext u' r hr
    · unfold sepStage
      rw [show (c :: u') ++ r = c :: (u' ++ r) from rfl,
        dropStar_cons_ne c (u' ++ r) hc, dropStar_cons_ne c u' hc]
      exact sepCheck_ext (c :: u') r hr

theorem coreMatch_goodCont (a : List Atom) (ha : atomsOK a = true)
    (hnil : a ≠ []) (r : List Char) (hr : goodCont r) :
    coreMatch a r = none := by
  unfold coreMatch
  obtain ⟨a0, as, rfl⟩ : ∃ a0 as, a = a0 :: as := by
    cases a with
    | nil => exact absurd rfl hnil
    | cons a0 as => exact ⟨a0, as, rfl⟩
  have hds : dropStar r = r := by
    rcases hr with rfl | rfl | ⟨c, r', rfl, _, _, _, _⟩
    · rfl
    · exact dropStar_cons_ne _ _ (by decide)
    · exact dropStar_cons_ne _ _ (by decide)
  rw [hds]
  cases a0 with
  | ch x =>
    have hx : x.toLower ≠ '\n' := by
      simp only [atomsOK, Bool.and_eq_true, bne_iff_ne, ne_eq] at ha
      exact ha.1
    rw [matchAtoms_ch_goodCont x as hx r hr]
    rfl
  | amp =>
    rw [matchAtoms_amp_goodCont as r hr]
    rfl

theorem coreMatch_ext (a : List Atom) (ha : atomsOK a = true) (hnil : a ≠ [])
    (t r : List Char) (hr : goodCont r) :
    coreMatch a (t ++ r) = (coreMatch a t).map (· ++ r) := by
  cases t with
  | nil =>
    rw [List.nil_append, coreMatch_goodCont a ha hnil r hr]
    have : coreMatch a [] = none := by
      unfold coreMatch
      obtain ⟨a0, as, rfl⟩ : ∃ a0 as, a = a0 :: as := by
        cases a with
        | nil => exact absurd rfl hnil
        | cons a0 as => exact ⟨a0, as, rfl⟩
      cases a0 <;> rfl
    rw [this]
    rfl
  | cons c t' =>
    unfold coreMatch
    have hds : dropStar ((c :: t') ++ r) = dropStar (c :: t') ++ r := by
      by_cases hc : c = '*'
      · subst hc
        rfl
      · rw [show (c :: t') ++ r = c :: (t' ++ r) from rfl,
          dropStar_cons_ne c (t' ++ r) hc, dropStar_cons_ne c t' hc]
        exact (List.cons_append c t' r).symm
    rw [hds, matchAtoms_ext a ha (dropStar (c :: t')) r hr]
    cases hm : matchAtoms a (dropStar (c :: t')) with
    | none => rfl
    | some u =>
      rw [show Option.map (fun x => x ++ r) (some u) = some (u ++ r) from rfl,
        Option.some_bind, sepStage_ext u r hr, Option.some_bind]

/-! ## Heading-variant lemmas (C7, layer C) -/

theorem matchAtoms_append (as₁ as₂ : List Atom) :
    ∀ cs, matchAtoms (as₁ ++ as₂) cs
      = (matchAtoms as₁ cs).bind (matchAtoms as₂) := by
  induction as₁ with
  | nil => intro cs; simp [matchAtoms]
  | cons a as ih =>
    intro cs
    cases a with
    | ch x =>
      cases cs with
      | nil => rfl
      | cons c cs =>
        simp only [List.cons_append, matchAtoms, List.append_eq]
        by_cases h : c.toLower = x.toLower
        · rw [if_pos h, if_pos h, ih cs]
        · rw [if_neg h, if_neg h]
          rfl
    | amp =>
      rw [List.cons_append, matchAtoms_amp_eq, matchAtoms_amp_eq]
      cases hd : cs.dropWhile wsChar with
      | nil => rfl
      | cons d ds =>
        by_cases hdAmp : d = '&'
        · subst hdAmp
          show matchAtoms (as ++ as₂) (ds.dropWhile wsChar)
            = (matchAtoms as (ds.dropWhile wsChar)).bind (matchAtoms as₂)
          exact ih _
        · rw [amp_match_ne (as ++ as₂) d ds hdAmp, amp_match_ne as d ds hdAmp]
          rfl

theorem matchAtoms_caseMap (L : List Char)
    (hL : ∀ c ∈ L, c.toUpper.toLower = c.toLower ∧ c.toLower.toLower = c.toLower) :
    ∀ (flags : Nat → Bool) (k : Nat) (r : List Char),
      matchAtoms (L.map Atom.ch) (caseMapAux flags k L ++ r) = some r := by
  induction L with
  | nil => intro flags k r; simp [caseMapAux, matchAtoms]
  | cons c L ih =>
    intro flags k r
    obtain ⟨h1, h2⟩ := hL c (by simp)
    have hcase : (if flags k then c.toUpper else c.toLower).toLower = c.toLower := by
      cases flags k
      · simpa using h2
      · simpa using h1
    rw [show caseMapAux flags k (c :: L)
        = (if flags k then c.toUpper else c.toLower) :: caseMapAux flags (k + 1) L
        from rfl]
    rw [List.cons_append]
    show (if (if flags k then c.toUpper else c.toLower).toLower = c.toLower then
        matchAtoms (L.map Atom.ch) (caseMapAux flags (k + 1) L ++ r) else none)
      = some r
    rw [if_pos hcase]
    exact ih (fun x hx => hL x (by simp [hx])) flags (k + 1) r

theorem dropWhile_all_append (p : Char → Bool) (l r : List Char)
    (hl : ∀ c ∈ l, p c = true) : (l ++ r).dropWhile p = r.dropWhile p := by
  induction l with
  | nil => rfl
  | cons c l ih =>
    rw [List.cons_append, List.dropWhile_cons, if_pos (hl c (by simp))]
    exact ih (fun x hx => hl x (by simp [hx]))

theorem sep_props (c : Char) (h : sepChar c = true) :
    wsChar c = false ∧ c ≠ '*' ∧ c ≠ '\n' := by
  have h2 : (c = ':' ∨ c = '—') ∨ c = '-' := by
    simp only [sepChar, Bool.or_eq_true, beq_iff_eq] at h
    exact h
  rcases h2 with (rfl | rfl) | rfl <;> exact ⟨by decide, by decide, by decide⟩

theorem hws_ws (l : List Char) (h : hwsOK l = true) :
    ∀ c ∈ l, wsChar c = true := by
  intro c hc
  have := List.all_eq_true.mp h c hc
  simp only [Bool.and_eq_true] at this
  exact this.1

theorem hws_no_nl (l : List Char) (h : hwsOK l = true) :
    ∀ c ∈ l, c ≠ '\n' := by
  intro c hc
  have := List.all_eq_true.mp h c hc
  simp only [Bool.and_eq_true, bne_iff_ne, ne_eq] at this
  exact this.2

theorem varOK_parts (v : HVariant) (hv : varOK v = true) :
    hwsOK v.aw1 = true ∧ hwsOK v.aw2 = true ∧ hwsOK v.ws = true
      ∧ sepChar v.sep = true := by
  simp only [varOK, Bool.and_eq_true] at hv
  exact ⟨hv.1.1.1, hv.1.1.2, hv.1.2, hv.2⟩

theorem sepStage_tail (b2 : Bool) (w : List Char) (hw : hwsOK w = true)
    (sp : Char) (hsp : sepChar sp = true) (r : List Char) :
    sepStage ((if b2 then ['*'] else []) ++ (w ++ sp :: r)) = some r := by
  have hsp' := sep_props sp hsp
  have hdw : (w ++ sp :: r).dropWhile wsChar = sp :: r := by
    rw [dropWhile_all_append wsChar w (sp :: r) (hws_ws w hw)]
    rw [List.dropWhile_cons, hsp'.1]
    simp
  cases b2 with
  | true =>
    show sepStage ('*' :: (w ++ sp :: r)) = some r
    unfold sepStage
    rw [show dropStar ('*' :: (w ++ sp :: r)) = w ++ sp :: r from rfl]
    rw [hdw]
    simp [hsp]
  | false =>
    show sepStage (w ++ sp :: r) = some r
    unfold sepStage
    have hds : dropStar (w ++ sp :: r) = w ++ sp :: r := by
      cases w with
      | nil =>
        show dropStar (sp :: r) = sp :: r
        exact dropStar_cons_ne sp r hsp'.2.1
      | cons c w' =>
        rw [List.cons_append]
        have hc : c ≠ '*' := by
          have := hws_ws _ hw c (by simp)
          intro habs
          subst habs
          simp [wsChar] at this
        exact dropStar_cons_ne c _ hc
    rw [hds, hdw]
    simp [hsp]

theorem mitigations_case (flags : Nat → Bool) (k : Nat) (Y : List Char) :
    (caseMapAux flags k "mitigations".data ++ Y).dropWhile wsChar
      = caseMapAux flags k "mitigations".data ++ Y := by
  rw [show caseMapAux flags k "mitigations".data
      = (if flags k then 'M' else 'm') :: caseMapAux flags (k + 1) "itigations".data
      from rfl]
  rw [List.cons_append, List.dropWhile_cons]
  cases flags k <;> simp [wsChar]

theorem labelBody_match (v : HVariant) (hv : varOK v = true) (Y : List Char) :
    matchAtoms (labelAtoms v.label) (labelBody v ++ Y) = some Y := by
  obtain ⟨ha1, ha2, _, _⟩ := varOK_parts v hv
  rcases v with ⟨⟨lv, hl⟩, b1, b2, fl, a1, a2, w, sp⟩
  simp only at ha1 ha2 ⊢
  interval_cases lv
  · have e1 : labelAtoms (⟨0, hl⟩ : Fin 4) = "verdict".data.map Atom.ch := by
      simp [labelAtoms, verdictAtoms, mkChAtoms]
    have e2 : labelBody ⟨⟨0, hl⟩, b1, b2, fl, a1, a2, w, sp⟩
        = caseMapAux fl 0 "verdict".data := by simp [labelBody]
    show matchAtoms (labelAtoms (⟨0, hl⟩ : Fin 4))
      (labelBody ⟨⟨0, hl⟩, b1, b2, fl, a1, a2, w, sp⟩ ++ Y) = some Y
    rw [e1, e2]
    exact matchAtoms_caseMap "verdict".data (by decide) fl 0 Y
  · have e1 : labelAtoms (⟨1, hl⟩ : Fin 4) = "payback".data.map Atom.ch := by
      simp [labelAtoms, paybackAtoms, mkChAtoms]
    have e2 : labelBody ⟨⟨1, hl⟩, b1, b2, fl, a1, a2, w, sp⟩
        = caseMapAux fl 0 "payback".data := by simp [labelBody]
    show matchAtoms (labelAtoms (⟨1, hl⟩ : Fin 4))
      (labelBody ⟨⟨1, hl⟩, b1, b2, fl, a1, a2, w, sp⟩ ++ Y) = some Y
    rw [e1, e2]
    exact matchAtoms_caseMap "payback".data (by decide) fl 0 Y
  · have e1 : labelAtoms (⟨2, hl⟩ : Fin 4) = "key points".data.map Atom.ch := by
      simp [labelAtoms, keyPointsAtoms, mkChAtoms]
    have e2 : labelBody ⟨⟨2, hl⟩, b1, b2, fl, a1, a2, w, sp⟩
        = caseMapAux fl 0 "key points".data := by simp [labelBody]
    show matchAtoms (labelAtoms (⟨2, hl⟩ : Fin 4))
      (labelBody ⟨⟨2, hl⟩, b1, b2, fl, a1, a2, w, sp⟩ ++ Y) = some Y
    rw [e1, e2]
    exact matchAtoms_caseMap "key points".data (by decide) fl 0 Y
  · have e1 : labelAtoms (⟨3, hl⟩ : Fin 4)
        = "risks".data.map Atom.ch ++ (Atom.amp :: "mitigations".data.map Atom.ch) := by
      simp [labelAtoms, risksAtoms, mkChAtoms]
    have e2 : labelBody ⟨⟨3, hl⟩, b1, b2, fl, a1, a2, w, sp⟩ ++ Y
        = caseMapAux fl 0 "risks".data ++ (a1 ++ ('&' :: (a2
            ++ (caseMapAux fl 5 "mitigations".data ++ Y)))) := by
      simp [labelBody, List.append_assoc]
    show matchAtoms (labelAtoms (⟨3, hl⟩ : Fin 4))
      (labelBody ⟨⟨3, hl⟩, b1, b2, fl, a1, a2, w, sp⟩ ++ Y) = some Y
    rw [e1, e2, matchAtoms_append]
    rw [matchAtoms_caseMap "risks".data (by decide) fl 0]
    rw [Option.some_bind, matchAtoms_amp_eq]
    rw [dropWhile_all_append wsChar a1 _ (hws_ws a1 ha1)]
    rw [show ('&' :: (a2 ++ (caseMapAux fl 5 "mitigations".data ++ Y))).dropWhile wsChar
        = '&' :: (a2 ++ (caseMapAux fl 5 "mitigations".data ++ Y)) by
      rw [List.dropWhile_cons]
      simp [wsChar]]
    show matchAtoms ("mitigations".data.map Atom.ch)
        ((a2 ++ (caseMapAux fl 5 "mitigations".data ++ Y)).dropWhile wsChar) = some Y
    rw [dropWhile_all_append wsChar a2 _ (hws_ws a2 ha2)]
    rw [mitigations_case fl 5 Y]
    exact matchAtoms_caseMap "mitigations".data (by decide) fl 5 Y

theorem labelBody_head (v : HVariant) :
    ∃ e tl, labelBody v = e :: tl
      ∧ (e.toLower = firstLower v.label ∧ e ≠ '*' ∧ wsChar e = false
        ∧ sepChar e = false ∧ e ≠ '&' ∧ e.toLower ≠ 'm' ∧ e ≠ '\n') := by
  rcases v with ⟨⟨lv, hl⟩, b1, b2, fl, a1, a2, w, sp⟩
  interval_cases lv
  · refine ⟨if fl 0 then 'V' else 'v', caseMapAux fl 1 "erdict".data, ?_, ?_⟩
    · have e2 : labelBody ⟨⟨0, hl⟩, b1, b2, fl, a1, a2, w, sp⟩
          = caseMapAux fl 0 "verdict".data := by simp [labelBody]
      rw [e2, show caseMapAux fl 0 "verdict".data
          = (if fl 0 then 'v'.toUpper else 'v'.toLower)
            :: caseMapAux fl 1 "erdict".data from rfl]
      cases hf : fl 0 <;> simp only [List.cons.injEq] <;>
        exact ⟨by decide, trivial⟩
    · have e3 : firstLower (⟨0, hl⟩ : Fin 4) = 'v' := by simp [firstLower]
      show (if fl 0 then 'V' else 'v').toLower = firstLower (⟨0, hl⟩ : Fin 4) ∧
        (if fl 0 then 'V' else 'v') ≠ '*' ∧ wsChar (if fl 0 then 'V' else 'v') = false ∧
        sepChar (if fl 0 then 'V' else 'v') = false ∧ (if fl 0 then 'V' else 'v') ≠ '&' ∧
        (if fl 0 then 'V' else 'v').toLower ≠ 'm' ∧ (if fl 0 then 'V' else 'v') ≠ '\n'
      rw [e3]
      cases hf : fl 0 <;> decide
  · refine ⟨if fl 0 then 'P' else 'p', caseMapAux fl 1 "ayback".data, ?_, ?_⟩
    · have e2 : labelBody ⟨⟨1, hl⟩, b1, b2, fl, a1, a2, w, sp⟩
          = caseMapAux fl 0 "payback".data := by simp [labelBody]
      rw [e2, show caseMapAux fl 0 "payback".data
          = (if fl 0 then 'p'.toUpper else 'p'.toLower)
            :: caseMapAux fl 1 "ayback".data from rfl]
      cases hf : fl 0 <;> simp only [List.cons.injEq] <;>
        exact ⟨by decide, trivial⟩
    · have e3 : firstLower (⟨1, hl⟩ : Fin 4) = 'p' := by simp [firstLower]
      show (if fl 0 then 'P' else 'p').toLower = firstLower (⟨1, hl⟩ : Fin 4) ∧
        (if fl 0 then 'P' else 'p') ≠ '*' ∧ wsChar (if fl 0 then 'P' else 'p') = false ∧
        sepChar (if fl 0 then 'P' else 'p') = false ∧ (if fl 0 then 'P' else 'p') ≠ '&' ∧
        (if fl 0 then 'P' else 'p').toLower ≠ 'm' ∧ (if fl 0 then 'P' else 'p') ≠ '\n'
      rw [e3]
      cases hf : fl 0 <;> decide
  · refine ⟨if fl 0 then 'K' else 'k', caseMapAux fl 1 "ey points".data, ?_, ?_⟩
    · have e2 : labelBody ⟨⟨2, hl⟩, b1, b2, fl, a1, a2, w, sp⟩
          = caseMapAux fl 0 "key points".data := by simp [labelBody]
      rw [e2, show caseMapAux fl 0 "key points".data
          = (if fl 0 then 'k'.toUpper else 'k'.toLower)
            :: caseMapAux fl 1 "ey points".data from rfl]
      cases hf : fl 0 <;> simp only [List.cons.injEq] <;>
        exact ⟨by decide, trivial⟩
    · have e3 : firstLower (⟨2, hl⟩ : Fin 4) = 'k' := by simp [firstLower]
      show (if fl 0 then 'K' else 'k').toLower = firstLower (⟨2, hl⟩ : Fin 4) ∧
        (if fl 0 then 'K' else 'k') ≠ '*' ∧ wsChar (if fl 0 then 'K' else 'k') = false ∧
        sepChar (if fl 0 then 'K' else 'k') = false ∧ (if fl 0 then 'K' else 'k') ≠ '&' ∧
        (if fl 0 then 'K' else 'k').toLower ≠ 'm' ∧ (if fl 0 then 'K' else 'k') ≠ '\n'
      rw [e3]
      cases hf : fl 0 <;> decide
  · refine ⟨if fl 0 then 'R' else 'r', caseMapAux fl 1 "isks".data
      ++ (a1 ++ (('&' :: a2) ++ caseMapAux fl 5 "mitigations".data)), ?_, ?_⟩
    · have e2 : labelBody ⟨⟨3, hl⟩, b1, b2, fl, a1, a2, w, sp⟩
          = caseMapAux fl 0 "risks".data ++ (a1 ++ ('&' :: (a2
              ++ caseMapAux fl 5 "mitigations".data))) := by
        simp [labelBody, List.append_assoc]
      rw [e2, show caseMapAux fl 0 "risks".data
          = (if fl 0 then 'r'.toUpper else 'r'.toLower)
            :: caseMapAux fl 1 "isks".data from rfl]
      rw [List.cons_append]
      cases hf : fl 0 <;> simp only [List.cons.injEq] <;>
        refine ⟨by decide, ?_⟩ <;> simp [List.append_assoc]
    · have e3 : firstLower (⟨3, hl⟩ : Fin 4) = 'r' := by simp [firstLower]
      show (if fl 0 then 'R' else 'r').toLower = firstLower (⟨3, hl⟩ : Fin 4) ∧
        (if fl 0 then 'R' else 'r') ≠ '*' ∧ wsChar (if fl 0 then 'R' else 'r') = false ∧
        sepChar (if fl 0 then 'R' else 'r') = false ∧ (if fl 0 then 'R' else 'r') ≠ '&' ∧
        (if fl 0 then 'R' else 'r').toLower ≠ 'm' ∧ (if fl 0 then 'R' else 'r') ≠ '\n'
      rw [e3]
      cases hf : fl 0 <;> decide

theorem selfMatch (v : HVariant) (hv : varOK v = true) (r : List Char) :
    coreMatch (labelAtoms v.label) (renderVar v ++ r) = some r := by
  obtain ⟨_, _, hws, hsep⟩ := varOK_parts v hv
  have hsplit : renderVar v ++ r
      = (if v.bold1 then ['*'] else []) ++ (labelBody v
        ++ ((if v.bold2 then ['*'] else []) ++ (v.ws ++ v.sep :: r))) := by
    unfold renderVar
    simp [List.append_assoc]
  rw [hsplit]
  unfold coreMatch
  have hdstar : dropStar ((if v.bold1 then ['*'] else []) ++ (labelBody v
      ++ ((if v.bold2 then ['*'] else []) ++ (v.ws ++ v.sep :: r))))
      = labelBody v ++ ((if v.bold2 then ['*'] else []) ++ (v.ws ++ v.sep :: r)) := by
    cases hb : v.bold1 with
    | true => rfl
    | false =>
      obtain ⟨e, tl, he, hp⟩ := labelBody_head v
      rw [show ((if false then ['*'] else []) : List Char) ++ (labelBody v
          ++ ((if v.bold2 then ['*'] else []) ++ (v.ws ++ v.sep :: r)))
          = labelBody v ++ ((if v.bold2 then ['*'] else [])
            ++ (v.ws ++ v.sep :: r)) from by simp]
      rw [he, List.cons_append]
      exact dropStar_cons_ne e _ hp.2.1
  rw [hdstar, labelBody_match v hv, Option.some_bind]
  have := sepStage_tail v.bold2 v.ws hws v.sep hsep r
  exact this

theorem labelAtoms_shape (j : Fin 4) :
    ∃ y ys, labelAtoms j = Atom.ch y :: ys ∧ y.toLower = firstLower j := by
  obtain ⟨lv, hl⟩ := j
  interval_cases lv
  · refine ⟨'v', "erdict".data.map Atom.ch, ?_, ?_⟩
    · rw [show labelAtoms (⟨0, hl⟩ : Fin 4) = "verdict".data.map Atom.ch from by
        simp [labelAtoms, verdictAtoms, mkChAtoms]]
      rw [show ("verdict".data : List Char) = 'v' :: "erdict".data from by decide]
      rfl
    · rw [show firstLower (⟨0, hl⟩ : Fin 4) = 'v' from by simp [firstLower]]
      decide
  · refine ⟨'p', "ayback".data.map Atom.ch, ?_, ?_⟩
    · rw [show labelAtoms (⟨1, hl⟩ : Fin 4) = "payback".data.map Atom.ch from by
        simp [labelAtoms, paybackAtoms, mkChAtoms]]
      rw [show ("payback".data : List Char) = 'p' :: "ayback".data from by decide]
      rfl
    · rw [show firstLower (⟨1, hl⟩ : Fin 4) = 'p' from by simp [firstLower]]
      decide
  · refine ⟨'k', "ey points".data.map Atom.ch, ?_, ?_⟩
    · rw [show labelAtoms (⟨2, hl⟩ : Fin 4) = "key points".data.map Atom.ch from by
        simp [labelAtoms, keyPointsAtoms, mkChAtoms]]
      rw [show ("key points".data : List Char) = 'k' :: "ey points".data from by decide]
      rfl
    · rw [show firstLower (⟨2, hl⟩ : Fin 4) = 'k' from by simp [firstLower]]
      decide
  · refine ⟨'r', "isks".data.map Atom.ch
      ++ (Atom.amp :: "mitigations".data.map Atom.ch), ?_, ?_⟩
    · rw [show labelAtoms (⟨3, hl⟩ : Fin 4)
          = "risks".data.map Atom.ch ++ (Atom.amp :: "mitigations".data.map Atom.ch)
          from by simp [labelAtoms, risksAtoms, mkChAtoms]]
      rw [show ("risks".data : List Char) = 'r' :: "isks".data from by decide]
      rfl
    · rw [show firstLower (⟨3, hl⟩ : Fin 4) = 'r' from by simp [firstLower]]
      decide

theorem firstLower_inj (i j : Fin 4) (h : i ≠ j) : firstLower i ≠ firstLower j := by
  fin_cases i <;> fin_cases j <;> first | (exact absurd rfl h) | decide

theorem crossFail (j : Fin 4) (v : HVariant) (hj : v.label ≠ j) (X : List Char) :
    coreMatch (labelAtoms j) (renderVar v ++ X) = none := by
  obtain ⟨e, tl, he, hp⟩ := labelBody_head v
  obtain ⟨y, ys, hy, hyl⟩ := labelAtoms_shape j
  have hne : e.toLower ≠ y.toLower := by
    rw [hp.1, hyl]
    exact firstLower_inj v.label j hj
  have hsplit : renderVar v ++ X
      = (if v.bold1 then ['*'] else []) ++ (labelBody v
        ++ ((if v.bold2 then ['*'] else []) ++ (v.ws ++ v.sep :: X))) := by
    unfold renderVar
    simp [List.append_assoc]
  rw [hsplit]
  unfold coreMatch
  have hfail : ∀ Z, matchAtoms (labelAtoms j) (e :: Z) = none := by
    intro Z
    rw [hy]
    show (if e.toLower = y.toLower then matchAtoms ys Z else none) = none
    rw [if_neg hne]
  cases hb : v.bold1 with
  | true =>
    rw [show ((if true then ['*'] else []) : List Char) ++ (labelBody v
        ++ ((if v.bold2 then ['*'] else []) ++ (v.ws ++ v.sep :: X)))
        = '*' :: (labelBody v ++ ((if v.bold2 then ['*'] else [])
          ++ (v.ws ++ v.sep :: X))) from by simp]
    rw [show dropStar ('*' :: (labelBody v ++ ((if v.bold2 then ['*'] else [])
        ++ (v.ws ++ v.sep :: X))))
        = labelBody v ++ ((if v.bold2 then ['*'] else [])
          ++ (v.ws ++ v.sep :: X)) from rfl]
    rw [he, List.cons_append, hfail]
    rfl
  | false =>
    rw [show ((if false then ['*'] else []) : List Char) ++ (labelBody v
        ++ ((if v.bold2 then ['*'] else []) ++ (v.ws ++ v.sep :: X)))
        = labelBody v ++ ((if v.bold2 then ['*'] else [])
          ++ (v.ws ++ v.sep :: X)) from by simp]
    rw [he, List.cons_append,
      dropStar_cons_ne e _ hp.2.1, hfail]
    rfl

/-! ## Document rewriting (C7, layers D-E) -/

theorem atomsOK_label (j : Fin 4) : atomsOK (labelAtoms j) = true := by
  obtain ⟨lv, hl⟩ := j
  interval_cases lv
  · rw [show labelAtoms (⟨0, hl⟩ : Fin 4) = verdictAtoms from by simp [labelAtoms]]
    decide
  · rw [show labelAtoms (⟨1, hl⟩ : Fin 4) = paybackAtoms from by simp [labelAtoms]]
    decide
  · rw [show labelAtoms (⟨2, hl⟩ : Fin 4) = keyPointsAtoms from by simp [labelAtoms]]
    decide
  · rw [show labelAtoms (⟨3, hl⟩ : Fin 4) = risksAtoms from by simp [labelAtoms]]
    decide

theorem labelAtoms_ne_nil (j : Fin 4) : labelAtoms j ≠ [] := by
  obtain ⟨y, ys, hy, _⟩ := labelAtoms_shape j
  rw [hy]
  simp

theorem bodyClean1_head (a : List Atom) (c : Char) (cs : List Char)
    (h : bodyClean1 a (c :: cs) = true) :
    (c = '\n' → coreMatch a cs = none) ∧ bodyClean1 a cs = true := by
  simp only [bodyClean1, Bool.and_eq_true] at h
  refine ⟨?_, h.2⟩
  intro hc
  subst hc
  have h1 := h.1
  rw [if_pos rfl] at h1
  exact Option.isNone_iff_eq_none.mp h1

/-- One scan pass leaves a clean body segment untouched and continues into the
good continuation after it. -/
theorem scan_body (a : List Atom) (ha : atomsOK a = true) (hnil : a ≠ [])
    (rp b r : List Char) (hb : bodyClean1 a b = true) (hr : goodCont r) :
    scan a rp (b ++ r) = b ++ scan a rp r := by
  induction b with
  | nil => rfl
  | cons c b' ih =>
    obtain ⟨h1, h2⟩ := bodyClean1_head a c b' hb
    by_cases hc : c = '\n'
    · subst hc
      rw [List.cons_append]
      rw [scan_nl_nomatch a rp (b' ++ r) (by
        rw [coreMatch_ext a ha hnil b' r hr, h1 rfl]
        rfl)]
      rw [ih h2, List.cons_append]
    · rw [List.cons_append, scan_cons a rp c _ hc, ih h2, List.cons_append]

theorem caseMap_no_nl (L : List Char)
    (hL : ∀ c ∈ L, c.toUpper ≠ '\n' ∧ c.toLower ≠ '\n') :
    ∀ (flags : Nat → Bool) (k : Nat), ∀ x ∈ caseMapAux flags k L, x ≠ '\n' := by
  induction L with
  | nil => intro flags k x hx; simp [caseMapAux] at hx
  | cons c L ihL =>
    intro flags k x hx
    rw [show caseMapAux flags k (c :: L)
        = (if flags k then c.toUpper else c.toLower) :: caseMapAux flags (k + 1) L
        from rfl] at hx
    rcases List.mem_cons.mp hx with rfl | hx
    · obtain ⟨hu, hlo⟩ := hL c (by simp)
      cases hf : flags k
      · simpa using hlo
      · simpa using hu
    · exact ihL (fun y hy => hL y (by simp [hy])) flags (k + 1) x hx

theorem labelBody_no_nl (v : HVariant) (hv : varOK v = true) :
    ∀ c ∈ labelBody v, c ≠ '\n' := by
  obtain ⟨ha1, ha2, _, _⟩ := varOK_parts v hv
  rcases v with ⟨⟨lv, hl⟩, b1, b2, fl, a1, a2, w, sp⟩
  simp only at ha1 ha2 ⊢
  interval_cases lv
  · intro c hc
    rw [show labelBody ⟨⟨0, hl⟩, b1, b2, fl, a1, a2, w, sp⟩
        = caseMapAux fl 0 "verdict".data from by simp [labelBody]] at hc
    exact caseMap_no_nl "verdict".data (by decide) fl 0 c hc
  · intro c hc
    rw [show labelBody ⟨⟨1, hl⟩, b1, b2, fl, a1, a2, w, sp⟩
        = caseMapAux fl 0 "payback".data from by simp [labelBody]] at hc
    exact caseMap_no_nl "payback".data (by decide) fl 0 c hc
  · intro c hc
    rw [show labelBody ⟨⟨2, hl⟩, b1, b2, fl, a1, a2, w, sp⟩
        = caseMapAux fl 0 "key points".data from by simp [labelBody]] at hc
    exact caseMap_no_nl "key points".data (by decide) fl 0 c hc
  · intro c hc
    rw [show labelBody ⟨⟨3, hl⟩, b1, b2, fl, a1, a2, w, sp⟩
        = caseMapAux fl 0 "risks".data ++ (a1 ++ ('&' :: (a2
            ++ caseMapAux fl 5 "mitigations".data)))
        from by simp [labelBody, List.append_assoc]] at hc
    simp only [List.mem_append, List.mem_cons] at hc
    rcases hc with h | h | rfl | h | h
    · exact caseMap_no_nl "risks".data (by decide) fl 0 c h
    · exact hws_no_nl a1 ha1 c h
    · decide
    · exact hws_no_nl a2 ha2 c h
    · exact caseMap_no_nl "mitigations".data (by decide) fl 5 c h

theorem renderVar_no_nl (v : HVariant) (hv : varOK v = true) :
    ∀ c ∈ renderVar v, c ≠ '\n' := by
  obtain ⟨_, _, hws, hsep⟩ := varOK_parts v hv
  intro c hc
  unfold renderVar at hc
  simp only [List.mem_append, List.mem_singleton] at hc
  rcases hc with (((h | h) | h) | h) | rfl
  · cases hb : v.bold1
    · rw [hb] at h
      simp at h
    · rw [hb] at h
      simp only [if_true, List.mem_singleton] at h
      subst h
      decide
  · exact labelBody_no_nl v hv c h
  · cases hb : v.bold2
    · rw [hb] at h
      simp at h
    · rw [hb] at h
      simp only [if_true, List.mem_singleton] at h
      subst h
      decide
  · exact hws_no_nl v.ws hws c h
  · exact (sep_props v.sep hsep).2.2

theorem renderSecs_goodCont (secs : List HSection)
    (h : ∀ s ∈ secs, varOK s.v = true) : goodCont (renderSecs secs) := by
  cases secs with
  | nil => exact Or.inl rfl
  | cons s rest =>
    obtain ⟨e, tl, he, hp⟩ := labelBody_head s.v
    have hshape : ∃ c r', renderVar s.v ++ (s.body ++ renderSecs rest) = c :: r'
        ∧ wsChar c = false ∧ sepChar c = false ∧ c ≠ '&' ∧ c.toLower ≠ 'm' := by
      cases hb : s.v.bold1 with
      | true =>
        refine ⟨'*', labelBody s.v ++ ((if s.v.bold2 then ['*'] else [])
          ++ (s.v.ws ++ s.v.sep :: (s.body ++ renderSecs rest))), ?_,
          by decide, by decide, by decide, by decide⟩
        unfold renderVar
        rw [hb]
        simp [List.append_assoc]
      | false =>
        refine ⟨e, tl ++ ((if s.v.bold2 then ['*'] else [])
          ++ (s.v.ws ++ s.v.sep :: (s.body ++ renderSecs rest))), ?_,
          hp.2.2.1, hp.2.2.2.1, hp.2.2.2.2.1, hp.2.2.2.2.2.1⟩
        unfold renderVar
        rw [hb, he]
        simp [List.append_assoc]
    obtain ⟨c, r', hcr, hws', hsep', hamp', hm'⟩ := hshape
    show goodCont ('\n' :: (renderVar s.v ++ (s.body ++ renderSecs rest)))
    rw [hcr]
    exact Or.inr (Or.inr ⟨c, r', rfl, hws', hsep', hamp', hm'⟩)

theorem replFor_canon (j : Fin 4) :
    replFor (labelCanonical j) = '\n' :: renderVar (canonVar j) := by
  obtain ⟨lv, hl⟩ := j
  interval_cases lv
  · show replFor (labelCanonical (0 : Fin 4)) = '\n' :: renderVar (canonVar (0 : Fin 4))
    decide
  · show replFor (labelCanonical (1 : Fin 4)) = '\n' :: renderVar (canonVar (1 : Fin 4))
    decide
  · show replFor (labelCanonical (2 : Fin 4)) = '\n' :: renderVar (canonVar (2 : Fin 4))
    decide
  · show replFor (labelCanonical (3 : Fin 4)) = '\n' :: renderVar (canonVar (3 : Fin 4))
    decide

theorem canonVar_ok (j : Fin 4) : varOK (canonVar j) = true := by
  obtain ⟨lv, hl⟩ := j
  interval_cases lv
  · show varOK (canonVar (0 : Fin 4)) = true
    decide
  · show varOK (canonVar (1 : Fin 4)) = true
    decide
  · show varOK (canonVar (2 : Fin 4)) = true
    decide
  · show varOK (canonVar (3 : Fin 4)) = true
    decide

theorem bodyClean_at (j : Fin 4) (b : List Char) (h : bodyClean b = true) :
    bodyClean1 (labelAtoms j) b = true := by
  simp only [bodyClean, Bool.and_eq_true] at h
  obtain ⟨lv, hl⟩ := j
  interval_cases lv
  · rw [show labelAtoms (⟨0, hl⟩ : Fin 4) = verdictAtoms from by simp [labelAtoms]]
    exact h.1.1.1
  · rw [show labelAtoms (⟨1, hl⟩ : Fin 4) = paybackAtoms from by simp [labelAtoms]]
    exact h.1.1.2
  · rw [show labelAtoms (⟨2, hl⟩ : Fin 4) = keyPointsAtoms from by simp [labelAtoms]]
    exact h.1.2
  · rw [show labelAtoms (⟨3, hl⟩ : Fin 4) = risksAtoms from by simp [labelAtoms]]
    exact h.2

theorem body0Clean_parts (j : Fin 4) (b : List Char) (h : body0Clean b = true) :
    bodyClean1 (labelAtoms j) b = true ∧ coreMatch (labelAtoms j) b = none := by
  simp only [body0Clean, Bool.and_eq_true] at h
  refine ⟨bodyClean_at j b h.1.1.1.1, ?_⟩
  obtain ⟨lv, hl⟩ := j
  interval_cases lv
  · rw [show labelAtoms (⟨0, hl⟩ : Fin 4) = verdictAtoms from by simp [labelAtoms]]
    exact Option.isNone_iff_eq_none.mp h.1.1.1.2
  · rw [show labelAtoms (⟨1, hl⟩ : Fin 4) = paybackAtoms from by simp [labelAtoms]]
    exact Option.isNone_iff_eq_none.mp h.1.1.2
  · rw [show labelAtoms (⟨2, hl⟩ : Fin 4) = keyPointsAtoms from by simp [labelAtoms]]
    exact Option.isNone_iff_eq_none.mp h.1.2
  · rw [show labelAtoms (⟨3, hl⟩ : Fin 4) = risksAtoms from by simp [labelAtoms]]
    exact Option.isNone_iff_eq_none.mp h.2

theorem canonSec_varOK (j : Fin 4) (s : HSection) (h : varOK s.v = true) :
    varOK (canonSec j s).v = true := by
  unfold canonSec
  split_ifs
  · exact canonVar_ok j
  · exact h

theorem canonSec_body (j : Fin 4) (s : HSection) :
    (canonSec j s).body = s.body := by
  unfold canonSec
  split_ifs <;> rfl

theorem canonSec_compose (s : HSection) :
    canonSec 3 (canonSec 2 (canonSec 1 (canonSec 0 s)))
      = ⟨canonVar s.v.label, s.body⟩ := by
  rcases s with ⟨v, b⟩
  by_cases h0 : v.label = 0
  · rw [show canonSec 0 ⟨v, b⟩ = ⟨canonVar 0, b⟩ from by
      unfold canonSec; rw [if_pos h0]]
    rw [show canonSec 1 ⟨canonVar 0, b⟩ = ⟨canonVar 0, b⟩ from rfl]
    rw [show canonSec 2 ⟨canonVar 0, b⟩ = ⟨canonVar 0, b⟩ from rfl]
    rw [show canonSec 3 ⟨canonVar 0, b⟩ = ⟨canonVar 0, b⟩ from rfl]
    rw [h0]
  · by_cases h1 : v.label = 1
    · rw [show canonSec 0 ⟨v, b⟩ = ⟨v, b⟩ from by
        unfold canonSec; rw [if_neg h0]]
      rw [show canonSec 1 ⟨v, b⟩ = ⟨canonVar 1, b⟩ from by
        unfold canonSec; rw [if_pos h1]]
      rw [show canonSec 2 ⟨canonVar 1, b⟩ = ⟨canonVar 1, b⟩ from rfl]
      rw [show canonSec 3 ⟨canonVar 1, b⟩ = ⟨canonVar 1, b⟩ from rfl]
      rw [h1]
    · by_cases h2 : v.label = 2
      · rw [show canonSec 0 ⟨v, b⟩ = ⟨v, b⟩ from by
          unfold canonSec; rw [if_neg h0]]
        rw [show canonSec 1 ⟨v, b⟩ = ⟨v, b⟩ from by
          unfold canonSec; rw [if_neg h1]]
        rw [show canonSec 2 ⟨v, b⟩ = ⟨canonVar 2, b⟩ from by
          unfold canonSec; rw [if_pos h2]]
        rw [show canonSec 3 ⟨canonVar 2, b⟩ = ⟨canonVar 2, b⟩ from rfl]
        rw [h2]
      · have h3 : v.label = 3 := by
          have hlt := v.label.isLt
          have hv0 : v.label.val ≠ 0 := fun habs => h0 (Fin.ext habs)
          have hv1 : v.label.val ≠ 1 := fun habs => h1 (Fin.ext habs)
          have hv2 : v.label.val ≠ 2 := fun habs => h2 (Fin.ext habs)
          exact Fin.ext (by omega)
        rw [show canonSec 0 ⟨v, b⟩ = ⟨v, b⟩ from by
          unfold canonSec; rw [if_neg h0]]
        rw [show canonSec 1 ⟨v, b⟩ = ⟨v, b⟩ from by
          unfold canonSec; rw [if_neg h1]]
        rw [show canonSec 2 ⟨v, b⟩ = ⟨v, b⟩ from by
          unfold canonSec; rw [if_neg h2]]
        rw [show canonSec 3 ⟨v, b⟩ = ⟨canonVar 3, b⟩ from by
          unfold canonSec; rw [if_pos h3]]
        rw [h3]

/-- One full `re.sub` pass over a rendered document canonicalises exactly the
headings of its label and leaves everything else unchanged. -/
theorem scan_secs (j : Fin 4) (secs : List HSection)
    (h : ∀ s ∈ secs, varOK s.v = true ∧ bodyClean s.body = true) :
    scan (labelAtoms j) (replFor (labelCanonical j)) (renderSecs secs)
      = renderSecs (secs.map (canonSec j)) := by
  induction secs with
  | nil => rfl
  | cons s rest ih =>
    obtain ⟨hvOK, hbc⟩ := h s (by simp)
    have hrest : ∀ s' ∈ rest, varOK s'.v = true ∧ bodyClean s'.body = true :=
      fun s' hs' => h s' (by simp [hs'])
    have hgc : goodCont (renderSecs rest) :=
      renderSecs_goodCont rest (fun s' hs' => (hrest s' hs').1)
    have hbc1 : bodyClean1 (labelAtoms j) s.body = true := bodyClean_at j s.body hbc
    show scan (labelAtoms j) (replFor (labelCanonical j))
        ('\n' :: (renderVar s.v ++ (s.body ++ renderSecs rest)))
      = renderSecs ((s :: rest).map (canonSec j))
    by_cases hj : s.v.label = j
    · have hm : coreMatch (labelAtoms j) (renderVar s.v ++ (s.body ++ renderSecs rest))
          = some (s.body ++ renderSecs rest) := by
        rw [← hj]
        exact selfMatch s.v hvOK _
      rw [scan_nl_match _ _ _ _ hm]
      rw [scan_body (labelAtoms j) (atomsOK_label j) (labelAtoms_ne_nil j) _
        s.body (renderSecs rest) hbc1 hgc]
      rw [ih hrest, replFor_canon j]
      show ('\n' :: renderVar (canonVar j)) ++ (s.body ++ renderSecs (rest.map (canonSec j)))
        = renderSecs (canonSec j s :: rest.map (canonSec j))
      rw [show canonSec j s = ⟨canonVar j, s.body⟩ from by
        unfold canonSec; rw [if_pos hj]]
      rfl
    · have hm : coreMatch (labelAtoms j) (renderVar s.v ++ (s.body ++ renderSecs rest))
          = none := crossFail j s.v hj _
      rw [scan_nl_nomatch _ _ _ hm]
      rw [scan_append_nonl _ _ (renderVar s.v) _ (renderVar_no_nl s.v hvOK)]
      rw [scan_body (labelAtoms j) (atomsOK_label j) (labelAtoms_ne_nil j) _
        s.body (renderSecs rest) hbc1 hgc]
      rw [ih hrest]
      show '\n' :: (renderVar s.v ++ (s.body ++ renderSecs (rest.map (canonSec j))))
        = renderSecs (canonSec j s :: rest.map (canonSec j))
      rw [show canonSec j s = s from by unfold canonSec; rw [if_neg hj]]
      rfl

theorem subL_doc (j : Fin 4) (b0 : List Char) (secs : List HSection)
    (h0 : body0Clean b0 = true)
    (hs : ∀ s ∈ secs, varOK s.v = true ∧ bodyClean s.body = true) :
    subL (labelAtoms j) (replFor (labelCanonical j)) (renderDoc b0 secs)
      = renderDoc b0 (secs.map (canonSec j)) := by
  obtain ⟨hb0c, hb0n⟩ := body0Clean_parts j b0 h0
  have hgc : goodCont (renderSecs secs) :=
    renderSecs_goodCont secs (fun s' hs' => (hs s' hs').1)
  have hcm : coreMatch (labelAtoms j) (b0 ++ renderSecs secs) = none := by
    rw [coreMatch_ext _ (atomsOK_label j) (labelAtoms_ne_nil j) b0 _ hgc, hb0n]
    rfl
  show subL (labelAtoms j) (replFor (labelCanonical j)) (b0 ++ renderSecs secs)
    = b0 ++ renderSecs (secs.map (canonSec j))
  rw [show subL (labelAtoms j) (replFor (labelCanonical j)) (b0 ++ renderSecs secs)
      = scan (labelAtoms j) (replFor (labelCanonical j)) (b0 ++ renderSecs secs) from by
    unfold subL
    rw [hcm]]
  rw [scan_body _ (atomsOK_label j) (labelAtoms_ne_nil j) _ b0 _ hb0c hgc]
  rw [scan_secs j secs hs]

theorem normalize_doc (b0 : List Char) (secs : List HSection)
    (h0 : body0Clean b0 = true)
    (hs : ∀ s ∈ secs, varOK s.v = true ∧ bodyClean s.body = true) :
    _normalize_headers (renderDoc b0 secs)
      = stripL (renderDoc b0
          (secs.map fun s => ⟨canonVar s.v.label, s.body⟩)) := by
  have map_pres : ∀ (j : Fin 4) (l : List HSection),
      (∀ s ∈ l, varOK s.v = true ∧ bodyClean s.body = true) →
      ∀ s ∈ l.map (canonSec j), varOK s.v = true ∧ bodyClean s.body = true := by
    intro j l hl s hsmem
    obtain ⟨t, ht, rfl⟩ := List.mem_map.mp hsmem
    exact ⟨canonSec_varOK j t (hl t ht).1, by
      rw [canonSec_body]; exact (hl t ht).2⟩
  unfold _normalize_headers
  rw [show verdictAtoms = labelAtoms 0 from by decide,
      show ("Verdict" : String) = labelCanonical 0 from by decide]
  rw [subL_doc 0 b0 secs h0 hs]
  rw [show paybackAtoms = labelAtoms 1 from by decide,
      show ("Payback" : String) = labelCanonical 1 from by decide]
  rw [subL_doc 1 b0 _ h0 (map_pres 0 secs hs)]
  rw [show keyPointsAtoms = labelAtoms 2 from by decide,
      show ("Key Points" : String) = labelCanonical 2 from by decide]
  rw [subL_doc 2 b0 _ h0 (map_pres 1 _ (map_pres 0 secs hs))]
  rw [show risksAtoms = labelAtoms 3 from by decide,
      show ("Risks & Mitigations" : String) = labelCanonical 3 from by decide]
  rw [subL_doc 3 b0 _ h0 (map_pres 2 _ (map_pres 1 _ (map_pres 0 secs hs)))]
  rw [List.map_map, List.map_map, List.map_map]
  have hmaps : List.map (((canonSec 3 ∘ canonSec 2) ∘ canonSec 1) ∘ canonSec 0) secs
      = List.map (fun s => (⟨canonVar s.v.label, s.body⟩ : HSection)) secs := by
    apply List.map_congr_left
    intro s _
    show canonSec 3 (canonSec 2 (canonSec 1 (canonSec 0 s))) = _
    exact canonSec_compose s
  rw [hmaps]

/-- C7: over documents rendered as leading clean body text followed by
newline-anchored heading occurrences (each any case/bold/whitespace/separator
variant of one of the four target labels, followed by clean body text), the
normalizer rewrites exactly the heading occurrences — each to the canonical
bolded form of its own label, in place, so the original relative order and all
body text are kept — and then strips leading and trailing whitespace of the
whole result. -/
theorem normalize_headers_spec (b0 : List Char) (secs : List HSection)
    (h0 : body0Clean b0 = true)
    (hs : (secs.all fun s => varOK s.v && bodyClean s.body) = true) :
    _normalize_headers (renderDoc b0 secs)
      = stripL (renderDoc b0
          (secs.map fun s => ⟨canonVar s.v.label, s.body⟩)) := by
  apply normalize_doc b0 secs h0
  intro s hsmem
  have hres := List.all_eq_true.mp hs s hsmem
  simp only [Bool.and_eq_true] at hres
  exact hres

theorem normalize_headers_spec_witness :
    body0Clean c7B0 = true
    ∧ (c7Secs.all fun s => varOK s.v && bodyClean s.body) = true
    ∧ _normalize_headers (renderDoc c7B0 c7Secs)
        = stripL (renderDoc c7B0
            (c7Secs.map fun s => ⟨canonVar s.v.label, s.body⟩)) :=
  ⟨by decide, by decide, normalize_headers_spec c7B0 c7Secs (by decide) (by decide)⟩

/-- C7 counterexample: non-heading content is not always preserved verbatim.
On input `Verdict: a ` the heading is canonicalised, but the trailing space —
non-heading body content — is removed by the final strip, and the inserted
leading newline is removed too: the output is `*Verdict* — a`, in which the
original body text ` a ` no longer occurs. -/
theorem normalize_headers_counterexample :
    _normalize_headers (("Verdict: a " : String).data)
      = ("*Verdict* — a" : String).data
    ∧ containsSub ((" a " : String).data)
        (_normalize_headers (("Verdict: a " : String).data)) = false := by
  exact ⟨by decide, by decide⟩

end BreakerBrain
